import Mathlib

/-!
Verification of the otbv-cpp octree boolean-volume codec.

Shallow embedding of `src/conversion.cpp` and `src/io.cpp`:
* volumes `vector3<bool>` become `List (List (List Bool))`;
* `size_t` becomes `Nat`, with an explicit `% 2 ^ 64` exactly where the C++
  arithmetic can wrap (`pow2_roof`), and `uint32_t` fields become `% 2 ^ 32`;
* functions that `throw` return `Except Err _`;
* the byte stream written by `save` / read by `load` becomes `List Nat`
  (one `Nat` per byte, values 0..255; `char` signedness is
  implementation-defined in C++, bytes are modelled by their unsigned values,
  matching the container format's field layout);
* the recursive encoder/decoder carry an explicit recursion-depth argument in
  the C++ (`depth`, checked against `RECURSION_MAX_DEPTH = 20` at entry).
  They are embedded structurally on the remaining budget
  `fuel = (RECURSION_MAX_DEPTH + 1) - depth`; the wrappers
  `encode_recursive` / `decode_recursive` restore the C++ signature, and agree
  with the source for every depth (fuel 0 ⟺ depth > 20 ⟺ throw).
-/

namespace Otbv

/-- `vector3<bool>` from conversion.h. -/
abbrev Vol := List (List (List Bool))

/-- Error taxonomy: each `throw` site of the source, distinguished the way the
source distinguishes them (exception class and message). -/
inductive Err where
  | InvalidArgument
  | RecursionLimitExceeded
  | OutOfRange
  | FormatError
  deriving DecidableEq

deriving instance DecidableEq for Except

/-- `RECURSION_MAX_DEPTH` from conversion.cpp. -/
def RECURSION_MAX_DEPTH : Nat := 20

/-- `MAX_RESOLUTION` from io.cpp. -/
def MAX_RESOLUTION : Nat := 100000

/-- Cell access `data[x][y][z]`; out-of-range reads (undefined behaviour in
C++, never exercised on the source's call paths) default to `[]`/`false`. -/
def getCell (data : Vol) (x y z : Nat) : Bool :=
  ((data.getD x []).getD y []).getD z false

/-- `std::vector::resize(n)` on a list: truncate to `n`, or extend with `d`. -/
def listResize (l : List α) (n : Nat) (d : α) : List α :=
  l.take n ++ List.replicate (n - l.length) d

/-- Apply `f` to the elements of `l` at positions `[s, e)` (helper used to
model the in-place triple loop of `set_range`). -/
def mapRange (s e : Nat) (f : α → α) : List α → List α :=
  go 0
where
  go (i : Nat) : List α → List α
    | [] => []
    | a :: t => (if s ≤ i ∧ i < e then f a else a) :: go (i + 1) t

/-- The loop body of `pow2_roof` (conversion.cpp lines 23–29):
`do { val = number; number |= number >> shift; shift *= 2; } while (number > val);
return val + 1;` on a 64-bit `size_t`. -/
def pow2_loop (number shift : Nat) : Nat :=
  let number' := (number ||| (number >>> shift)) % 2 ^ 64
  if number < number' then pow2_loop number' (shift * 2)
  else (number + 1) % 2 ^ 64
termination_by 2 ^ 64 - number
decreasing_by
  have : number' < 2 ^ 64 := Nat.mod_lt _ (by norm_num)
  omega

/-- `pow2_roof` (conversion.cpp lines 20–31). `number & (number - 1)` on
`size_t`: for `number = 0` the subtraction wraps to `2^64 - 1`. -/
def pow2_roof (number : Nat) : Nat :=
  if number &&& ((number + (2 ^ 64 - 1)) % 2 ^ 64) = 0 then number
  else pow2_loop number 1

/-- `max_res_pow2_roof` (conversion.cpp lines 38–43). -/
def max_res_pow2_roof (x_res y_res z_res : Nat) : Nat :=
  pow2_roof (max (max x_res y_res) z_res)

/-- `is_subvolume_homogeneous` (conversion.cpp lines 105–124). -/
def is_subvolume_homogeneous (data : Vol) (xs xe ys ye zs ze : Nat) : Bool :=
  if (xe - xs) * (ye - ys) * (ze - zs) < 2 then true
  else
    (List.range' xs (xe - xs)).all fun x =>
      (List.range' ys (ye - ys)).all fun y =>
        (List.range' zs (ze - zs)).all fun z =>
          getCell data x y z == getCell data xs ys zs

/-- `size` (conversion.cpp lines 126–133). -/
def size (data : Vol) : Nat :=
  let s := data.length
  let s := if s ≠ 0 then s * (data.getD 0 []).length else s
  if s ≠ 0 then s * ((data.getD 0 []).getD 0 []).length else s

/-- `encode_recursive` (conversion.cpp lines 135–180), structurally recursive
on the remaining depth budget (`fuel = 21 - depth`); `fuel = 0` is the
`depth > RECURSION_MAX_DEPTH` throw.  Returns the bits appended to `encoding`.
Child order is the source's nested `i` (x), `j` (y), `k` (z) loops, first
half before second half on every axis. -/
def encodeGo (data : Vol) (xs xe ys ye zs ze : Nat) : Nat → Except Err (List Bool)
  | 0 => .error .RecursionLimitExceeded
  | fuel + 1 =>
    if (xe - xs) * (ye - ys) * (ze - zs) = 0 then .error .InvalidArgument
    else if is_subvolume_homogeneous data xs xe ys ye zs ze then
      .ok [false, getCell data xs ys zs]
    else do
      let c0 ← encodeGo data xs ((xe + xs) >>> 1) ys ((ye + ys) >>> 1) zs ((ze + zs) >>> 1) fuel
      let c1 ← encodeGo data xs ((xe + xs) >>> 1) ys ((ye + ys) >>> 1) ((ze + zs) >>> 1) ze fuel
      let c2 ← encodeGo data xs ((xe + xs) >>> 1) ((ye + ys) >>> 1) ye zs ((ze + zs) >>> 1) fuel
      let c3 ← encodeGo data xs ((xe + xs) >>> 1) ((ye + ys) >>> 1) ye ((ze + zs) >>> 1) ze fuel
      let c4 ← encodeGo data ((xe + xs) >>> 1) xe ys ((ye + ys) >>> 1) zs ((ze + zs) >>> 1) fuel
      let c5 ← encodeGo data ((xe + xs) >>> 1) xe ys ((ye + ys) >>> 1) ((ze + zs) >>> 1) ze fuel
      let c6 ← encodeGo data ((xe + xs) >>> 1) xe ((ye + ys) >>> 1) ye zs ((ze + zs) >>> 1) fuel
      let c7 ← encodeGo data ((xe + xs) >>> 1) xe ((ye + ys) >>> 1) ye ((ze + zs) >>> 1) ze fuel
      .ok (true :: (c0 ++ c1 ++ c2 ++ c3 ++ c4 ++ c5 ++ c6 ++ c7))

/-- `encode_recursive` with the source's `depth` parameter. -/
def encode_recursive (data : Vol) (xs xe ys ye zs ze depth : Nat) :
    Except Err (List Bool) :=
  encodeGo data xs xe ys ye zs ze (RECURSION_MAX_DEPTH + 1 - depth)

/-- `encode` (conversion.cpp lines 182–187): the region is
`[0, data.size())` on all three axes. -/
def encode (data : Vol) : Except Err (List Bool) :=
  encode_recursive data 0 data.length 0 data.length 0 data.length 0

/-- The pure resizing step of `pad_to_cube` (conversion.cpp lines 193–201). -/
def padCube (data : Vol) (n : Nat) : Vol :=
  (listResize data n []).map fun plane =>
    (listResize plane n []).map fun col => listResize col n false

/-- `pad_to_cube` (conversion.cpp lines 189–208, const overload). -/
def pad_to_cube (data : Vol) : Except Err Vol :=
  if size data = 0 then .error .InvalidArgument
  else
    .ok (padCube data
      (max_res_pow2_roof data.length (data.getD 0 []).length
        ((data.getD 0 []).getD 0 []).length))

/-- `set_range` (conversion.cpp lines 235–246). -/
def set_range (data : Vol) (value : Bool) (xs xe ys ye zs ze : Nat) : Vol :=
  mapRange xs xe (fun plane =>
    mapRange ys ye (fun col =>
      mapRange zs ze (fun _ => value) col) plane) data

/-- `decode_recursive` (conversion.cpp lines 248–284) on the remaining depth
budget, returning the updated volume together with the cursor (`next_idx`).
Split arrays and the `{0,1}³` loop order mirror the source. -/
def decodeGo (encoding : List Bool) (out : Vol) (next_idx : Nat)
    (xs xe ys ye zs ze : Nat) : Nat → Except Err (Vol × Nat)
  | 0 => .error .RecursionLimitExceeded
  | fuel + 1 =>
    if next_idx ≥ encoding.length then .error .OutOfRange
    else if encoding.getD next_idx false = false then
      if next_idx + 1 ≥ encoding.length then .error .OutOfRange
      else
        .ok (set_range out (encoding.getD (next_idx + 1) false) xs xe ys ye zs ze,
          next_idx + 2)
    else do
      let (out1, i1) ← decodeGo encoding out (next_idx + 1)
        xs ((xs + xe) / 2) ys ((ys + ye) / 2) zs ((zs + ze) / 2) fuel
      let (out2, i2) ← decodeGo encoding out1 i1
        xs ((xs + xe) / 2) ys ((ys + ye) / 2) ((zs + ze) / 2) ze fuel
      let (out3, i3) ← decodeGo encoding out2 i2
        xs ((xs + xe) / 2) ((ys + ye) / 2) ye zs ((zs + ze) / 2) fuel
      let (out4, i4) ← decodeGo encoding out3 i3
        xs ((xs + xe) / 2) ((ys + ye) / 2) ye ((zs + ze) / 2) ze fuel
      let (out5, i5) ← decodeGo encoding out4 i4
        ((xs + xe) / 2) xe ys ((ys + ye) / 2) zs ((zs + ze) / 2) fuel
      let (out6, i6) ← decodeGo encoding out5 i5
        ((xs + xe) / 2) xe ys ((ys + ye) / 2) ((zs + ze) / 2) ze fuel
      let (out7, i7) ← decodeGo encoding out6 i6
        ((xs + xe) / 2) xe ((ys + ye) / 2) ye zs ((zs + ze) / 2) fuel
      let (out8, i8) ← decodeGo encoding out7 i7
        ((xs + xe) / 2) xe ((ys + ye) / 2) ye ((zs + ze) / 2) ze fuel
      .ok (out8, i8)

/-- `decode_recursive` with the source's `depth` parameter. -/
def decode_recursive (encoding : List Bool) (out : Vol) (next_idx : Nat)
    (xs xe ys ye zs ze depth : Nat) : Except Err (Vol × Nat) :=
  decodeGo encoding out next_idx xs xe ys ye zs ze
    (RECURSION_MAX_DEPTH + 1 - depth)

/-- `cut_volume` (conversion.cpp lines 304–313): three nested resizes. -/
def cut_volume (volume : Vol) (x_res y_res z_res : Nat) : Vol :=
  (listResize volume x_res []).map fun plane =>
    (listResize plane y_res []).map fun col => listResize col z_res false

/-- `decode` (conversion.cpp lines 286–296).  The source checks
`end_idx == encoding.size()` only with `assert(...)`, a no-op under `NDEBUG`
(and a process abort, not a surfaced error, otherwise); the release-build
semantics is embedded: the result is returned regardless of the final
cursor. -/
def decode (encoding : List Bool) (x_res y_res z_res : Nat) : Except Err Vol := do
  let decoding_res := max_res_pow2_roof x_res y_res z_res
  let out := cut_volume [] decoding_res decoding_res decoding_res
  let (out, _end_idx) ←
    decode_recursive encoding out 0 0 decoding_res 0 decoding_res 0 decoding_res 0
  .ok (cut_volume out x_res y_res z_res)

/-! ## io.cpp: the binary container -/

/-- `SIGNATURE` (io.cpp line 15): the bytes of `"OTBV\x96"`. -/
def SIGNATURE : List Nat := [79, 84, 66, 86, 150]

/-- One output byte of the bit-packing loop (io.cpp lines 57–63):
`c |= data_out[i+j] << (7-j)`, i.e. 8 bits, most significant first. -/
def byteOfBits (bits : List Bool) : Nat :=
  bits.foldl (fun acc b => acc * 2 + (if b then 1 else 0)) 0

/-- The packing loop (io.cpp lines 57–63): consume 8 bits per byte.  The
source only runs it on lengths that are a multiple of 8. -/
def packBytes : List Bool → List Nat
  | b0 :: b1 :: b2 :: b3 :: b4 :: b5 :: b6 :: b7 :: rest =>
    byteOfBits [b0, b1, b2, b3, b4, b5, b6, b7] :: packBytes rest
  | [] => []
  | short => [byteOfBits short]

/-- `stream_data_as_file_bytes` (io.cpp lines 20–64): header plus bit-packed
payload.  `uint32_t` fields are stored little-endian (the byte order
`pack_chars` reads back). -/
def le32 (n : Nat) : List Nat :=
  [n % 2 ^ 32 % 256, n % 2 ^ 32 / 256 % 256, n % 2 ^ 32 / 65536 % 256,
    n % 2 ^ 32 / 16777216 % 256]

def stream_data_as_file_bytes (data : List Bool) (x_res y_res z_res : Nat)
    (padded : Bool) : List Nat :=
  let rem := data.length % 8
  let pad_len := if rem = 0 then 0 else 8 - rem
  let meta_first := (pad_len <<< 5) ||| ((if padded then 1 else 0) <<< 4)
  let meta_res_x := x_res % 2 ^ 32
  let meta_res_y := if padded then y_res % 2 ^ 32 else 0
  let meta_res_z := if padded then z_res % 2 ^ 32 else 0
  let meta_data_len := ((data.length + pad_len) / 8) % 2 ^ 32
  let data_out := List.replicate pad_len false ++ data
  SIGNATURE ++ [meta_first] ++ le32 meta_res_x ++ le32 meta_res_y ++
    le32 meta_res_z ++ le32 meta_data_len ++ packBytes data_out

/-- `save` (io.cpp lines 72–90).  `.ok none` is the size-0 early return — the
function returns before the `ofstream` is even opened, so no file is created
or truncated; `.ok (some bytes)` is a written file. -/
def save (data : Vol) : Except Err (Option (List Nat)) :=
  if size data = 0 then .ok none
  else do
    let padded_data ← pad_to_cube data
    let encoded_data ← encode padded_data
    .ok (some (stream_data_as_file_bytes encoded_data
      data.length (data.getD 0 []).length ((data.getD 0 []).getD 0 []).length
      (decide (size data < size padded_data))))

/-- `pack_chars` (io.cpp lines 92–99): assemble a little-endian `uint32_t`
from 4 bytes (unsigned-byte model). -/
def pack_chars (c : List Nat) : Nat :=
  c.getD 0 0 + c.getD 1 0 * 256 + c.getD 2 0 * 65536 + c.getD 3 0 * 16777216

/-- The bits of one payload byte, as pushed by the unpacking loop
(io.cpp lines 142–146): `(byte >> j) & 1` for `j = 7, …, 0`. -/
def bitsOfByte (b : Nat) : List Bool :=
  [b.testBit 7, b.testBit 6, b.testBit 5, b.testBit 4,
    b.testBit 3, b.testBit 2, b.testBit 1, b.testBit 0]

/-- `load` (io.cpp lines 101–150), from the file's bytes. -/
def load (file : List Nat) : Except Err Vol :=
  if file.take 5 ≠ SIGNATURE then .error .FormatError
  else
    let meta := (file.drop 5).take 17
    let padding_length := meta.getD 0 0 >>> 5
    let is_padded := (meta.getD 0 0 >>> 4) &&& 1 = 1
    let x_res := pack_chars (meta.drop 1)
    let y_res := if is_padded then pack_chars (meta.drop 5) else x_res
    let z_res := if is_padded then pack_chars (meta.drop 9) else x_res
    if x_res > MAX_RESOLUTION ∨ y_res > MAX_RESOLUTION ∨ z_res > MAX_RESOLUTION
    then .error .FormatError
    else
      let data_length := pack_chars (meta.drop 13)
      let data_buffer := (file.drop 22).take data_length
      let encoding := (data_buffer.map bitsOfByte).flatten
      let encoding := encoding.drop padding_length
      decode encoding x_res y_res z_res

/-! ## Shape predicates and basic list lemmas -/

/-- The data-model invariant of §3: a rectangular cuboid with the given
resolution. -/
def cuboid (V : Vol) (x y z : Nat) : Prop :=
  V.length = x ∧ ∀ p ∈ V, p.length = y ∧ ∀ r ∈ p, r.length = z

theorem mapRange_go_getElem? (s e : Nat) (f : α → α) (l : List α) (i k : Nat) :
    (mapRange.go s e f i l)[k]? =
      l[k]?.map fun a => if s ≤ i + k ∧ i + k < e then f a else a := by
  induction l generalizing i k with
  | nil => simp [mapRange.go]
  | cons a t ih =>
    cases k with
    | zero => simp [mapRange.go]
    | succ k =>
      simp only [mapRange.go, List.getElem?_cons_succ, ih (i + 1) k]
      have : i + 1 + k = i + (k + 1) := by omega
      rw [this]

theorem mapRange_getElem? (s e : Nat) (f : α → α) (l : List α) (k : Nat) :
    (mapRange s e f l)[k]? = l[k]?.map fun a => if s ≤ k ∧ k < e then f a else a := by
  simpa using mapRange_go_getElem? s e f l 0 k

theorem mapRange_length (s e : Nat) (f : α → α) (l : List α) :
    (mapRange s e f l).length = l.length := by
  show (mapRange.go s e f 0 l).length = l.length
  generalize 0 = i
  induction l generalizing i with
  | nil => simp [mapRange.go]
  | cons a t ih => simp [mapRange.go, ih]

theorem listResize_length (l : List α) (n : Nat) (d : α) :
    (listResize l n d).length = n := by
  simp only [listResize, List.length_append, List.length_take, List.length_replicate]
  omega

theorem listResize_getElem?_lt (l : List α) (n : Nat) (d : α) (k : Nat)
    (h : k < n) :
    (listResize l n d)[k]? = if k < l.length then l[k]? else some d := by
  by_cases hk : k < l.length
  · rw [listResize, List.getElem?_append_left (by simp; omega), List.getElem?_take_of_lt h,
      if_pos hk]
  · rw [listResize, List.getElem?_append_right (by simp; omega), if_neg hk]
    simp only [List.length_take]
    rw [List.getElem?_replicate]
    have : min n l.length = l.length := by omega
    rw [this, if_pos (by omega)]

theorem listResize_getElem?_ge (l : List α) (n : Nat) (d : α) (k : Nat)
    (h : n ≤ k) : (listResize l n d)[k]? = none := by
  rw [List.getElem?_eq_none]
  rw [listResize_length]
  exact h

theorem listResize_getD (l : List α) (n : Nat) (d : α) (k : Nat) (h : k < n)
    (d' : α) : (listResize l n d).getD k d' = l.getD k d := by
  rw [List.getD_eq_getElem?_getD, List.getD_eq_getElem?_getD,
    listResize_getElem?_lt l n d k h]
  by_cases hk : k < l.length
  · rw [if_pos hk, List.getElem?_eq_getElem hk]
    rfl
  · rw [if_neg hk, List.getElem?_eq_none (by omega)]
    simp

theorem listResize_eq_self (l : List α) (n : Nat) (d : α) (h : l.length = n) :
    listResize l n d = l := by
  subst h
  simp [listResize]

/-- `cut_volume` always produces a cuboid of exactly the requested shape. -/
theorem cuboid_cut_volume (V : Vol) (x y z : Nat) :
    cuboid (cut_volume V x y z) x y z := by
  refine ⟨by simp [cut_volume, listResize_length], ?_⟩
  intro p hp
  simp only [cut_volume, List.mem_map] at hp
  obtain ⟨q, _, rfl⟩ := hp
  refine ⟨by simp [listResize_length], ?_⟩
  intro r hr
  simp only [List.mem_map] at hr
  obtain ⟨w, _, rfl⟩ := hr
  simp [listResize_length]

theorem getD_map_resize_lt (L : List α) (n : Nat) (d : α) (F : α → β) (k : Nat)
    (h : k < n) (d' : β) : ((listResize L n d).map F).getD k d' = F (L.getD k d) := by
  rw [List.getD_eq_getElem?_getD, List.getElem?_map, listResize_getElem?_lt L n d k h]
  by_cases hk : k < L.length
  · rw [if_pos hk, List.getElem?_eq_getElem hk]
    simp [List.getD_eq_getElem?_getD, List.getElem?_eq_getElem hk]
  · rw [if_neg hk, List.getD_eq_getElem?_getD, List.getElem?_eq_none (by omega)]
    simp

theorem getD_map_resize_ge (L : List α) (n : Nat) (d : α) (F : α → β) (k : Nat)
    (h : n ≤ k) (d' : β) : ((listResize L n d).map F).getD k d' = d' := by
  rw [List.getD_eq_getElem?_getD, List.getElem?_eq_none (by simp [listResize_length]; omega)]
  simp

theorem getCell_cut_volume (V : Vol) (x y z a b c : Nat) :
    getCell (cut_volume V x y z) a b c =
      if a < x ∧ b < y ∧ c < z then getCell V a b c else false := by
  unfold getCell cut_volume
  by_cases ha : a < x
  · rw [getD_map_resize_lt _ _ _ _ _ ha]
    by_cases hb : b < y
    · rw [getD_map_resize_lt _ _ _ _ _ hb]
      by_cases hc : c < z
      · rw [listResize_getD _ _ _ _ hc, if_pos ⟨ha, hb, hc⟩]
      · rw [List.getD_eq_getElem?_getD,
          List.getElem?_eq_none (by rw [listResize_length]; omega),
          if_neg (by tauto)]
        rfl
    · rw [getD_map_resize_ge _ _ _ _ _ (by omega), if_neg (by tauto)]
      rfl
  · rw [getD_map_resize_ge _ _ _ _ _ (by omega), if_neg (by tauto)]
    rfl

theorem getD_mapRange (s e : Nat) (f : α → α) (l : List α) (k : Nat) (d : α) :
    (mapRange s e f l).getD k d =
      if s ≤ k ∧ k < e then (l[k]?.map f).getD d else l.getD k d := by
  rw [List.getD_eq_getElem?_getD, mapRange_getElem? s e f l k]
  cases hk : l[k]? with
  | none =>
    by_cases h : s ≤ k ∧ k < e <;>
      simp [h, List.getD_eq_getElem?_getD, hk]
  | some a =>
    by_cases h : s ≤ k ∧ k < e <;>
      simp [h, List.getD_eq_getElem?_getD, hk]

/-- Reduce a `getD` through `Option.map` when the function fixes the
default. -/
theorem getD_opt_map (l : List α) (F : α → β) (k : Nat) (da : α) (db : β)
    (hF : F da = db) : (l[k]?.map F).getD db = F (l.getD k da) := by
  cases hk : l[k]? with
  | none => simp [List.getD_eq_getElem?_getD, hk, hF]
  | some a => simp [List.getD_eq_getElem?_getD, hk]

theorem mem_mapRange (s e : Nat) (f : α → α) (l : List α) (a : α)
    (h : a ∈ mapRange s e f l) : a ∈ l ∨ ∃ b ∈ l, a = f b := by
  suffices H : ∀ i, a ∈ mapRange.go s e f i l → a ∈ l ∨ ∃ b ∈ l, a = f b from
    H 0 h
  clear h
  induction l with
  | nil =>
    intro i hi
    simp [mapRange.go] at hi
  | cons b t ih =>
    intro i hi
    simp only [mapRange.go, List.mem_cons] at hi
    rcases hi with hi | hi
    · split at hi
      · exact Or.inr ⟨b, List.mem_cons_self b t, hi⟩
      · exact Or.inl (hi ▸ List.mem_cons_self b t)
    · rcases ih (i + 1) hi with h' | ⟨c, hc, rfl⟩
      · exact Or.inl (List.mem_cons_of_mem b h')
      · exact Or.inr ⟨c, List.mem_cons_of_mem b hc, rfl⟩

/-- `set_range` preserves the cuboid shape. -/
theorem cuboid_set_range (data : Vol) (v : Bool) (xs xe ys ye zs ze x y z : Nat)
    (h : cuboid data x y z) : cuboid (set_range data v xs xe ys ye zs ze) x y z := by
  obtain ⟨hx, hplanes⟩ := h
  refine ⟨by rw [set_range, mapRange_length, hx], ?_⟩
  intro p hp
  rcases mem_mapRange _ _ _ _ _ hp with hp' | ⟨q, hq, rfl⟩
  · exact hplanes p hp'
  · obtain ⟨hqy, hrows⟩ := hplanes q hq
    refine ⟨by rw [mapRange_length, hqy], ?_⟩
    intro r hr
    rcases mem_mapRange _ _ _ _ _ hr with hr' | ⟨w, hw, rfl⟩
    · exact hrows r hr'
    · rw [mapRange_length]
      exact hrows w hw

/-- A cell outside the written range is untouched by `set_range`. -/
theorem getCell_set_range_of_not_mem (data : Vol) (v : Bool)
    (xs xe ys ye zs ze a b c : Nat)
    (h : ¬(xs ≤ a ∧ a < xe ∧ ys ≤ b ∧ b < ye ∧ zs ≤ c ∧ c < ze)) :
    getCell (set_range data v xs xe ys ye zs ze) a b c = getCell data a b c := by
  unfold getCell set_range
  rw [getD_mapRange]
  by_cases hx : xs ≤ a ∧ a < xe
  · rw [if_pos hx, getD_opt_map _ _ _ [] [] rfl, getD_mapRange]
    by_cases hy : ys ≤ b ∧ b < ye
    · rw [if_pos hy, getD_opt_map _ _ _ [] [] rfl, getD_mapRange]
      have hz : ¬(zs ≤ c ∧ c < ze) := by tauto
      rw [if_neg hz]
    · rw [if_neg hy]
  · rw [if_neg hx]

/-- A cell inside the written range (and inside the volume) gets the value. -/
theorem getCell_set_range_of_mem (data : Vol) (v : Bool)
    (xs xe ys ye zs ze a b c : Nat)
    (hm : xs ≤ a ∧ a < xe ∧ ys ≤ b ∧ b < ye ∧ zs ≤ c ∧ c < ze)
    (hc : c < ((data.getD a []).getD b []).length) :
    getCell (set_range data v xs xe ys ye zs ze) a b c = v := by
  obtain ⟨h1, h2, h3, h4, h5, h6⟩ := hm
  unfold getCell set_range
  rw [getD_mapRange, if_pos ⟨h1, h2⟩, getD_opt_map _ _ _ [] [] rfl,
    getD_mapRange, if_pos ⟨h3, h4⟩, getD_opt_map _ _ _ [] [] rfl,
    getD_mapRange, if_pos ⟨h5, h6⟩]
  rw [List.getElem?_eq_getElem hc]
  rfl

/-! ## Homogeneity lemmas -/

/-- A subvolume all of whose cells carry one value passes the homogeneity
scan. -/
theorem hom_of_const (data : Vol) (xs xe ys ye zs ze : Nat) (v : Bool)
    (h : ∀ a b c, xs ≤ a → a < xe → ys ≤ b → b < ye → zs ≤ c → c < ze →
      getCell data a b c = v) :
    is_subvolume_homogeneous data xs xe ys ye zs ze = true := by
  unfold is_subvolume_homogeneous
  split
  · rfl
  · next hsz =>
    have h1 : xs < xe := by
      by_contra hh
      apply hsz
      have h0 : xe - xs = 0 := by omega
      rw [h0, Nat.zero_mul, Nat.zero_mul]
      omega
    have h2 : ys < ye := by
      by_contra hh
      apply hsz
      have h0 : ye - ys = 0 := by omega
      rw [h0, Nat.mul_zero, Nat.zero_mul]
      omega
    have h3 : zs < ze := by
      by_contra hh
      apply hsz
      have h0 : ze - zs = 0 := by omega
      rw [h0, Nat.mul_zero]
      omega
    rw [List.all_eq_true]
    intro a hain
    rw [List.all_eq_true]
    intro b hbin
    rw [List.all_eq_true]
    intro c hcin
    rw [List.mem_range'_1] at hain hbin hcin
    rw [h a b c (by omega) (by omega) (by omega) (by omega) (by omega) (by omega),
      h xs ys zs (by omega) (by omega) (by omega) (by omega) (by omega) (by omega)]
    exact beq_self_eq_true v

/-- A subvolume of size ≥ 2 passing the scan has all cells equal to the
corner cell. -/
theorem hom_cells (data : Vol) (xs xe ys ye zs ze : Nat)
    (h : is_subvolume_homogeneous data xs xe ys ye zs ze = true)
    (hsz : 2 ≤ (xe - xs) * (ye - ys) * (ze - zs)) :
    ∀ a b c, xs ≤ a → a < xe → ys ≤ b → b < ye → zs ≤ c → c < ze →
      getCell data a b c = getCell data xs ys zs := by
  intro a b c h1 h2 h3 h4 h5 h6
  unfold is_subvolume_homogeneous at h
  rw [if_neg (by omega)] at h
  rw [List.all_eq_true] at h
  have ha := h a (by rw [List.mem_range'_1]; omega)
  rw [List.all_eq_true] at ha
  have hb := ha b (by rw [List.mem_range'_1]; omega)
  rw [List.all_eq_true] at hb
  have hc := hb c (by rw [List.mem_range'_1]; omega)
  exact eq_of_beq hc

/-- A failed homogeneity scan means size ≥ 2 and a cell differing from the
corner. -/
theorem not_hom (data : Vol) (xs xe ys ye zs ze : Nat)
    (h : is_subvolume_homogeneous data xs xe ys ye zs ze = false) :
    2 ≤ (xe - xs) * (ye - ys) * (ze - zs) ∧
      ∃ a b c, xs ≤ a ∧ a < xe ∧ ys ≤ b ∧ b < ye ∧ zs ≤ c ∧ c < ze ∧
        getCell data a b c ≠ getCell data xs ys zs := by
  unfold is_subvolume_homogeneous at h
  split at h
  · exact absurd h (by simp)
  · next hsz =>
    refine ⟨by omega, ?_⟩
    rw [List.all_eq_false] at h
    obtain ⟨a, hain, ha⟩ := h
    rw [Bool.not_eq_true, List.all_eq_false] at ha
    · obtain ⟨b, hbin, hb⟩ := ha
      rw [Bool.not_eq_true, List.all_eq_false] at hb
      obtain ⟨c, hcin, hc⟩ := hb
      rw [List.mem_range'_1] at hain hbin hcin
      refine ⟨a, b, c, by omega, by omega, by omega, by omega, by omega, by omega, ?_⟩
      intro hcontra
      rw [hcontra] at hc
      exact hc (beq_self_eq_true _)

/-! ## `Except` plumbing -/

theorem exceptBind_ok (a : α) (f : α → Except Err β) :
    (Except.ok a >>= f) = f a := rfl

theorem exceptBind_error (e : Err) (f : α → Except Err β) :
    ((Except.error e : Except Err α) >>= f) = Except.error e := rfl

theorem exceptBind_eq_ok (x : Except Err α) (f : α → Except Err β) (b : β) :
    (x >>= f) = .ok b ↔ ∃ a, x = .ok a ∧ f a = .ok b := by
  cases x <;> simp [Bind.bind, Except.bind]

/-! ## `pow2_roof` correctness -/

theorem le_or (a b : Nat) : a ≤ a ||| b := by
  induction a using Nat.strong_induction_on generalizing b with
  | _ a ih =>
    match a with
    | 0 => simp [Nat.zero_or]
    | a + 1 =>
      have hdiv := ih ((a + 1) / 2) (by omega) (b / 2)
      rw [← Nat.or_div_two] at hdiv
      have hmod : (a + 1) % 2 = 1 → ((a + 1) ||| b) % 2 = 1 := fun h1 =>
        Nat.or_mod_two_eq_one.mpr (Or.inl h1)
      have ha := Nat.div_add_mod (a + 1) 2
      have ho := Nat.div_add_mod ((a + 1) ||| b) 2
      have := Nat.mod_two_eq_zero_or_one (a + 1)
      omega

theorem testBit_true_of_bounds (n L : Nat) (h1 : 2 ^ L ≤ n)
    (h2 : n < 2 ^ (L + 1)) : n.testBit L = true := by
  rw [Nat.testBit_to_div_mod]
  have : n / 2 ^ L = 1 := by
    apply Nat.div_eq_of_lt_le (by omega)
    rw [pow_succ] at h2
    omega
  rw [this]
  decide

theorem testBit_false_of_lt (n L i : Nat) (h : n < 2 ^ L) (hi : L ≤ i) :
    n.testBit i = false :=
  Nat.testBit_lt_two_pow
    (lt_of_lt_of_le h (Nat.pow_le_pow_right (by norm_num) hi))

/-- A number `< 2^(L+1)` with all bits `0..L` set is `2^(L+1) - 1`. -/
theorem eq_pred_pow_of_testBit (cur L : Nat) (hlt : cur < 2 ^ (L + 1))
    (hbits : ∀ i, i ≤ L → cur.testBit i = true) : cur = 2 ^ (L + 1) - 1 := by
  apply Nat.eq_of_testBit_eq
  intro i
  rw [Nat.testBit_two_pow_sub_one]
  by_cases hi : i ≤ L
  · rw [hbits i hi, decide_eq_true (by omega)]
  · rw [testBit_false_of_lt cur (L + 1) i hlt (by omega),
      decide_eq_false (by omega)]

/-- Correctness of the bit-smearing loop: starting anywhere in `[2^L, 2^(L+1))`
with the top `s`-sized block of bits below `L` already filled, the loop
returns `2^(L+1)` (wrapped to 64 bits). -/
theorem pow2_loop_eq (L : Nat) (hL : L ≤ 63) :
    ∀ fuel cur s, 2 ^ (L + 1) - cur ≤ fuel → 1 ≤ s → 2 ^ L ≤ cur →
      cur < 2 ^ (L + 1) →
      (∀ i, i ≤ L → L < i + s → cur.testBit i = true) →
      pow2_loop cur s = 2 ^ (L + 1) % 2 ^ 64 := by
  have h64 : 2 ^ (L + 1) ≤ 2 ^ 64 := Nat.pow_le_pow_right (by norm_num) (by omega)
  intro fuel
  induction fuel with
  | zero =>
    intro cur s hfuel _ _ hlt _
    omega
  | succ fuel ih =>
    intro cur s hfuel hs hge hlt hbits
    rw [pow2_loop]
    have hshr : cur >>> s ≤ cur := by
      rw [Nat.shiftRight_eq_div_pow]
      exact Nat.div_le_self _ _
    have hor : cur ||| (cur >>> s) < 2 ^ (L + 1) :=
      Nat.or_lt_two_pow hlt (by omega)
    have hmod : (cur ||| (cur >>> s)) % 2 ^ 64 = cur ||| (cur >>> s) :=
      Nat.mod_eq_of_lt (by omega)
    by_cases hcase : cur < (cur ||| (cur >>> s)) % 2 ^ 64
    · rw [if_pos hcase]
      apply ih _ (s * 2) _ (by omega) (by omega) (by rw [hmod]; exact hor)
      · intro i hiL hblock
        rw [hmod, Nat.testBit_or]
        by_cases hold : L < i + s
        · rw [hbits i hiL hold]
          rfl
        · have hsh : (cur >>> s).testBit i = cur.testBit (s + i) :=
            Nat.testBit_shiftRight cur
          rw [hsh, hbits (s + i) (by omega) (by omega), Bool.or_true]
      · rw [hmod] at hcase ⊢
        omega
    · rw [if_neg hcase]
      have hfix : cur ||| (cur >>> s) = cur := by
        have hle := le_or cur (cur >>> s)
        rw [hmod] at hcase
        omega
      have hdown : ∀ k i, i ≤ L → L - i ≤ k → cur.testBit i = true := by
        intro k
        induction k with
        | zero =>
          intro i hi hk
          exact hbits i hi (by omega)
        | succ k ihk =>
          intro i hi hk
          by_cases hblock : L < i + s
          · exact hbits i hi hblock
          · have hnext := ihk (i + s) (by omega) (by omega)
            have : cur.testBit i = (cur.testBit i || (cur >>> s).testBit i) := by
              conv_lhs => rw [← hfix]
              rw [Nat.testBit_or]
            rw [this, Nat.testBit_shiftRight cur]
            have : s + i = i + s := by omega
            rw [this, hnext, Bool.or_true]
      have hall : cur = 2 ^ (L + 1) - 1 :=
        eq_pred_pow_of_testBit cur L hlt fun i hi => hdown (L - i) i hi (by omega)
      rw [hall]
      congr 1
      omega

/-- `2^k & (2^k - 1) = 0`: the power-of-two fast path of `pow2_roof`. -/
theorem land_pred_eq_zero (k : Nat) : 2 ^ k &&& (2 ^ k - 1) = 0 := by
  apply Nat.eq_of_testBit_eq
  intro i
  rw [Nat.testBit_and, Nat.zero_testBit, Nat.testBit_two_pow,
    Nat.testBit_two_pow_sub_one]
  by_cases h : k = i
  · subst h
    simp
  · simp [h]

/-- A non-power-of-two has `n & (n - 1) ≠ 0`. -/
theorem land_pred_ne_zero (n L : Nat) (h1 : 2 ^ L ≤ n) (h2 : n < 2 ^ (L + 1))
    (h3 : n ≠ 2 ^ L) : n &&& (n - 1) ≠ 0 := by
  intro hcontra
  have hbit : (n &&& (n - 1)).testBit L = true := by
    rw [Nat.testBit_and, testBit_true_of_bounds n L h1 h2,
      testBit_true_of_bounds (n - 1) L (by omega) (by omega)]
    rfl
  rw [hcontra, Nat.zero_testBit] at hbit
  exact Bool.false_ne_true hbit

theorem wrap_pred (n : Nat) (h1 : 1 ≤ n) (h2 : n < 2 ^ 64) :
    (n + (2 ^ 64 - 1)) % 2 ^ 64 = n - 1 := by
  have : n + (2 ^ 64 - 1) = (n - 1) + 1 * 2 ^ 64 := by omega
  rw [this, Nat.add_mul_mod_self_right, Nat.mod_eq_of_lt (by omega)]

/-- `pow2_roof` returns an exact power of two unchanged (for `k ≤ 63`,
i.e. every power of two representable as a positive `size_t`). -/
theorem pow2_roof_pow (k : Nat) (hk : k ≤ 63) : pow2_roof (2 ^ k) = 2 ^ k := by
  have hlt : 2 ^ k < 2 ^ 64 :=
    lt_of_le_of_lt (Nat.pow_le_pow_right (by norm_num) hk) (by norm_num)
  rw [pow2_roof, wrap_pred _ (Nat.one_le_two_pow) hlt,
    if_pos (land_pred_eq_zero k)]

/-- `pow2_roof` on a non-power-of-two in `[2^L, 2^(L+1))`, `L ≤ 63`: the
smeared result, wrapped to 64 bits. -/
theorem pow2_roof_not_pow (n L : Nat) (h1 : 2 ^ L ≤ n) (h2 : n < 2 ^ (L + 1))
    (h3 : n ≠ 2 ^ L) (hL : L ≤ 63) :
    pow2_roof n = 2 ^ (L + 1) % 2 ^ 64 := by
  have h64 : 2 ^ (L + 1) ≤ 2 ^ 64 := Nat.pow_le_pow_right (by norm_num) (by omega)
  rw [pow2_roof, wrap_pred n (by omega) (by omega),
    if_neg (land_pred_ne_zero n L h1 h2 h3)]
  exact pow2_loop_eq L hL (2 ^ (L + 1)) n 1 (by omega) (by omega) h1 h2
    (fun i hi hblock => by
      have : i = L := by omega
      rw [this]
      exact testBit_true_of_bounds n L h1 h2)

/-- The headline `pow2_roof` specification on `1 ≤ n ≤ 2^63`: the smallest
power of two that is `≥ n`, expressed through `Nat.clog`. -/
theorem pow2_roof_spec (n : Nat) (h1 : 1 ≤ n) (h2 : n ≤ 2 ^ 63) :
    pow2_roof n = 2 ^ Nat.clog 2 n := by
  obtain ⟨L, hLdef⟩ : ∃ L, Nat.log2 n = L := ⟨_, rfl⟩
  have hln : 2 ^ L ≤ n := hLdef ▸ Nat.log2_self_le (by omega)
  have hun : n < 2 ^ (L + 1) := hLdef ▸ Nat.lt_log2_self
  have hL : L ≤ 63 := by
    by_contra hcon
    have : 2 ^ 64 ≤ 2 ^ L := Nat.pow_le_pow_right (by norm_num) (by omega)
    have : (2 : Nat) ^ 63 < 2 ^ 64 := by norm_num
    omega
  by_cases hpow : n = 2 ^ L
  · rw [hpow, pow2_roof_pow L hL, Nat.clog_pow 2 L (by norm_num)]
  · have hL62 : L ≤ 62 := by
      by_contra hcon
      have hL63 : L = 63 := by omega
      apply hpow
      rw [hL63] at hln ⊢
      have h63 : (2 : Nat) ^ 63 ≤ n := hln
      omega
    rw [pow2_roof_not_pow n L hln hun hpow hL,
      Nat.mod_eq_of_lt (lt_of_le_of_lt
        (Nat.pow_le_pow_right (by norm_num) (show L + 1 ≤ 63 by omega))
        (by norm_num))]
    congr 1
    have hclog_le : Nat.clog 2 n ≤ L + 1 :=
      (Nat.le_pow_iff_clog_le (by norm_num)).mp (by omega)
    have hclog_gt : L < Nat.clog 2 n := by
      by_contra hcon
      have : n ≤ 2 ^ L := by
        rw [Nat.le_pow_iff_clog_le (by norm_num)]
        omega
      exact hpow (by omega)
    omega

/-- `n ≤ pow2_roof n` and `pow2_roof n` is a power of two, on the usable
range. -/
theorem pow2_roof_ge (n : Nat) (h1 : 1 ≤ n) (h2 : n ≤ 2 ^ 63) :
    n ≤ pow2_roof n := by
  rw [pow2_roof_spec n h1 h2]
  exact Nat.le_pow_clog (by norm_num) n

/-- Within the documented resolution bound, the padded cube side is a power
of two `2^J` with `J ≤ 17`, at least as large as every axis. -/
theorem max_res_pow2_roof_spec (x y z : Nat) (h1 : 1 ≤ max (max x y) z)
    (h2 : max (max x y) z ≤ MAX_RESOLUTION) :
    ∃ J, J ≤ 17 ∧ max_res_pow2_roof x y z = 2 ^ J ∧
      max (max x y) z ≤ 2 ^ J := by
  have hM : max (max x y) z ≤ 2 ^ 63 := by
    have : MAX_RESOLUTION ≤ 2 ^ 63 := by norm_num [MAX_RESOLUTION]
    omega
  refine ⟨Nat.clog 2 (max (max x y) z), ?_, ?_, ?_⟩
  · calc Nat.clog 2 (max (max x y) z) ≤ Nat.clog 2 MAX_RESOLUTION :=
        Nat.clog_mono_right 2 h2
      _ ≤ 17 := by
        rw [← Nat.le_pow_iff_clog_le (by norm_num)]
        norm_num [MAX_RESOLUTION]
  · exact pow2_roof_spec _ h1 hM
  · exact Nat.le_pow_clog (by norm_num) _

/-! ## Cube-region arithmetic for the octree recursion -/

theorem cube_extent (t m : Nat) : t + 2 ^ m - t = 2 ^ m := by
  simp

theorem cube_size_ne_zero (xs ys zs m : Nat) :
    (xs + 2 ^ m - xs) * (ys + 2 ^ m - ys) * (zs + 2 ^ m - zs) ≠ 0 := by
  rw [cube_extent, cube_extent, cube_extent]
  positivity

/-- The midpoint split of a power-of-two range, encoder form
(`(xe + xs) >> 1`). -/
theorem split_mid_enc (t m : Nat) (hm : 1 ≤ m) :
    (t + 2 ^ m + t) >>> 1 = t + 2 ^ (m - 1) := by
  have h2 : 2 ^ m = 2 * 2 ^ (m - 1) := by
    conv_lhs => rw [show m = m - 1 + 1 by omega]
    rw [pow_succ]
    omega
  rw [Nat.shiftRight_one]
  omega

/-- The midpoint split, decoder form (`(xs + xe) / 2`). -/
theorem split_mid_dec (t m : Nat) (hm : 1 ≤ m) :
    (t + (t + 2 ^ m)) / 2 = t + 2 ^ (m - 1) := by
  have h2 : 2 ^ m = 2 * 2 ^ (m - 1) := by
    conv_lhs => rw [show m = m - 1 + 1 by omega]
    rw [pow_succ]
    omega
  omega

/-- An inhomogeneous power-of-two cube has side at least 2. -/
theorem cube_not_hom_m_pos (data : Vol) (xs ys zs m : Nat)
    (h : is_subvolume_homogeneous data xs (xs + 2 ^ m) ys (ys + 2 ^ m) zs
      (zs + 2 ^ m) = false) : 1 ≤ m := by
  by_contra hm
  have hm0 : m = 0 := by omega
  subst hm0
  have := (not_hom _ _ _ _ _ _ _ h).1
  rw [cube_extent, cube_extent, cube_extent] at this
  norm_num at this

/-- The encoder succeeds on any power-of-two cube region when the remaining
depth budget exceeds the number of halvings. -/
theorem encodeGo_ok (data : Vol) :
    ∀ m f xs ys zs, m < f →
      ∃ bits, encodeGo data xs (xs + 2 ^ m) ys (ys + 2 ^ m) zs (zs + 2 ^ m) f =
        .ok bits := by
  intro m
  induction m with
  | zero =>
    intro f xs ys zs hf
    obtain ⟨f', rfl⟩ : ∃ f', f = f' + 1 := ⟨f - 1, by omega⟩
    refine ⟨[false, getCell data xs ys zs], ?_⟩
    rw [encodeGo, if_neg (cube_size_ne_zero xs ys zs 0),
      if_pos (hom_of_const data _ _ _ _ _ _ (getCell data xs ys zs) ?_)]
    intro a b c h1 h2 h3 h4 h5 h6
    have : a = xs ∧ b = ys ∧ c = zs := by
      rw [pow_zero] at h2 h4 h6
      omega
    rw [this.1, this.2.1, this.2.2]
  | succ m ih =>
    intro f xs ys zs hf
    obtain ⟨f', rfl⟩ : ∃ f', f = f' + 1 := ⟨f - 1, by omega⟩
    rw [encodeGo]
    rw [if_neg (cube_size_ne_zero xs ys zs (m + 1))]
    by_cases hhom :
        is_subvolume_homogeneous data xs (xs + 2 ^ (m + 1)) ys (ys + 2 ^ (m + 1))
          zs (zs + 2 ^ (m + 1)) = true
    · rw [if_pos hhom]
      exact ⟨_, rfl⟩
    · rw [Bool.not_eq_true] at hhom
      rw [if_neg (by rw [hhom]; exact Bool.false_ne_true)]
      have hsplit : ∀ t : Nat, (t + 2 ^ (m + 1) + t) >>> 1 = t + 2 ^ m := by
        intro t
        have := split_mid_enc t (m + 1) (by omega)
        simpa using this
      rw [hsplit xs, hsplit ys, hsplit zs]
      have hstep : ∀ t : Nat, t + 2 ^ (m + 1) = (t + 2 ^ m) + 2 ^ m := by
        intro t
        rw [pow_succ]
        omega
      obtain ⟨c0, h0⟩ := ih f' xs ys zs (by omega)
      obtain ⟨c1, h1⟩ := ih f' xs ys (zs + 2 ^ m) (by omega)
      obtain ⟨c2, h2⟩ := ih f' xs (ys + 2 ^ m) zs (by omega)
      obtain ⟨c3, h3⟩ := ih f' xs (ys + 2 ^ m) (zs + 2 ^ m) (by omega)
      obtain ⟨c4, h4⟩ := ih f' (xs + 2 ^ m) ys zs (by omega)
      obtain ⟨c5, h5⟩ := ih f' (xs + 2 ^ m) ys (zs + 2 ^ m) (by omega)
      obtain ⟨c6, h6⟩ := ih f' (xs + 2 ^ m) (ys + 2 ^ m) zs (by omega)
      obtain ⟨c7, h7⟩ := ih f' (xs + 2 ^ m) (ys + 2 ^ m) (zs + 2 ^ m) (by omega)
      refine ⟨true :: (c0 ++ c1 ++ c2 ++ c3 ++ c4 ++ c5 ++ c6 ++ c7), ?_⟩
      rw [hstep xs, hstep ys, hstep zs]
      rw [h0]
      simp only [exceptBind_ok]
      rw [h1]
      simp only [exceptBind_ok]
      rw [h2]
      simp only [exceptBind_ok]
      rw [h3]
      simp only [exceptBind_ok]
      rw [h4]
      simp only [exceptBind_ok]
      rw [h5]
      simp only [exceptBind_ok]
      rw [h6]
      simp only [exceptBind_ok]
      rw [h7]
      simp only [exceptBind_ok]

theorem cuboid_getD_plane (V : Vol) (x y z a : Nat) (h : cuboid V x y z)
    (ha : a < x) : (V.getD a []).length = y := by
  obtain ⟨hx, hpl⟩ := h
  have haV : a < V.length := by omega
  rw [List.getD_eq_getElem?_getD, List.getElem?_eq_getElem haV]
  exact (hpl V[a] (List.getElem_mem haV)).1

theorem cuboid_getD_row (V : Vol) (x y z a b : Nat) (h : cuboid V x y z)
    (ha : a < x) (hb : b < y) : ((V.getD a []).getD b []).length = z := by
  obtain ⟨hx, hpl⟩ := h
  have haV : a < V.length := by omega
  have hplane := hpl V[a] (List.getElem_mem haV)
  have hgp : V.getD a [] = V[a] := by
    rw [List.getD_eq_getElem?_getD, List.getElem?_eq_getElem haV]
    rfl
  rw [hgp]
  have hbP : b < V[a].length := by omega
  have hgr : V[a].getD b [] = V[a][b] := by
    rw [List.getD_eq_getElem?_getD, List.getElem?_eq_getElem hbP]
    rfl
  rw [hgr]
  exact hplane.2 V[a][b] (List.getElem_mem hbP)

/-- All cells of a homogeneous power-of-two cube equal the corner cell. -/
theorem hom_cells_cube (data : Vol) (xs ys zs m : Nat)
    (hhom : is_subvolume_homogeneous data xs (xs + 2 ^ m) ys (ys + 2 ^ m) zs
      (zs + 2 ^ m) = true) :
    ∀ a b c, xs ≤ a → a < xs + 2 ^ m → ys ≤ b → b < ys + 2 ^ m →
      zs ≤ c → c < zs + 2 ^ m → getCell data a b c = getCell data xs ys zs := by
  intro a b c h1 h2 h3 h4 h5 h6
  cases m with
  | zero =>
    rw [pow_zero] at h2 h4 h6
    have : a = xs ∧ b = ys ∧ c = zs := by omega
    rw [this.1, this.2.1, this.2.2]
  | succ k =>
    apply hom_cells data _ _ _ _ _ _ hhom _ a b c h1 h2 h3 h4 h5 h6
    rw [cube_extent, cube_extent, cube_extent]
    have hp : 2 ≤ 2 ^ (k + 1) := by
      calc (2 : Nat) = 2 ^ 1 := by norm_num
        _ ≤ 2 ^ (k + 1) := Nat.pow_le_pow_right (by norm_num) (by omega)
    calc 2 ≤ 2 ^ (k + 1) := hp
      _ = 2 ^ (k + 1) * 1 * 1 := by ring
      _ ≤ 2 ^ (k + 1) * 2 ^ (k + 1) * 2 ^ (k + 1) := by
        apply Nat.mul_le_mul (Nat.mul_le_mul_left _ Nat.one_le_two_pow)
          Nat.one_le_two_pow

theorem getD_concat_at (pre bits rest : List Bool) (k : Nat)
    (hk : k < bits.length) (d : Bool) :
    (pre ++ bits ++ rest).getD (pre.length + k) d = bits.getD k d := by
  rw [List.getD_eq_getElem?_getD, List.getD_eq_getElem?_getD,
    List.getElem?_append_left
      (show pre.length + k < (pre ++ bits).length by simp; omega),
    List.getElem?_append_right (show pre.length ≤ pre.length + k by omega)]
  have hsub : pre.length + k - pre.length = k := by omega
  rw [hsub]

set_option maxHeartbeats 1600000 in
/-- The decoder, fed exactly one encoded subtree at the cursor, consumes it
and writes the encoded subvolume, leaving every other cell alone. -/
theorem decodeGo_encodeGo (data : Vol) (N : Nat) :
    ∀ m f g xs ys zs bits, m < f → m < g →
      xs + 2 ^ m ≤ N → ys + 2 ^ m ≤ N → zs + 2 ^ m ≤ N →
      encodeGo data xs (xs + 2 ^ m) ys (ys + 2 ^ m) zs (zs + 2 ^ m) f =
        .ok bits →
      ∀ out pre rest, cuboid out N N N →
        ∃ out',
          decodeGo (pre ++ bits ++ rest) out pre.length
              xs (xs + 2 ^ m) ys (ys + 2 ^ m) zs (zs + 2 ^ m) g =
            .ok (out', pre.length + bits.length) ∧
          cuboid out' N N N ∧
          ∀ a b c, getCell out' a b c =
            if xs ≤ a ∧ a < xs + 2 ^ m ∧ ys ≤ b ∧ b < ys + 2 ^ m ∧
                zs ≤ c ∧ c < zs + 2 ^ m
            then getCell data a b c else getCell out a b c := by
  have leaf :
      ∀ m g xs ys zs, m < g → xs + 2 ^ m ≤ N → ys + 2 ^ m ≤ N →
        zs + 2 ^ m ≤ N →
        is_subvolume_homogeneous data xs (xs + 2 ^ m) ys (ys + 2 ^ m) zs
          (zs + 2 ^ m) = true →
        ∀ out pre rest, cuboid out N N N →
          ∃ out',
            decodeGo (pre ++ [false, getCell data xs ys zs] ++ rest) out
                pre.length xs (xs + 2 ^ m) ys (ys + 2 ^ m) zs (zs + 2 ^ m) g =
              .ok (out', pre.length + 2) ∧
            cuboid out' N N N ∧
            ∀ a b c, getCell out' a b c =
              if xs ≤ a ∧ a < xs + 2 ^ m ∧ ys ≤ b ∧ b < ys + 2 ^ m ∧
                  zs ≤ c ∧ c < zs + 2 ^ m
              then getCell data a b c else getCell out a b c := by
    intro m g xs ys zs hg hxN hyN hzN hhom out pre rest hcub
    obtain ⟨g', rfl⟩ : ∃ g', g = g' + 1 := ⟨g - 1, by omega⟩
    have hlen : (pre ++ [false, getCell data xs ys zs] ++ rest).length =
        pre.length + 2 + rest.length := by
      simp
      omega
    have htok := getD_concat_at pre [false, getCell data xs ys zs] rest 0
      (by norm_num) false
    have hval := getD_concat_at pre [false, getCell data xs ys zs] rest 1
      (by norm_num) false
    rw [Nat.add_zero] at htok
    refine ⟨set_range out (getCell data xs ys zs) xs (xs + 2 ^ m) ys
      (ys + 2 ^ m) zs (zs + 2 ^ m), ?_, ?_, ?_⟩
    · rw [decodeGo, if_neg (by omega), if_pos (by rw [htok]; rfl),
        if_neg (by omega), hval]
      rfl
    · exact cuboid_set_range out _ _ _ _ _ _ _ N N N hcub
    · intro a b c
      by_cases hmem : xs ≤ a ∧ a < xs + 2 ^ m ∧ ys ≤ b ∧ b < ys + 2 ^ m ∧
          zs ≤ c ∧ c < zs + 2 ^ m
      · rw [if_pos hmem,
          getCell_set_range_of_mem out _ _ _ _ _ _ _ a b c hmem
            (by rw [cuboid_getD_row out N N N a b hcub (by omega) (by omega)]; omega),
          hom_cells_cube data xs ys zs m hhom a b c hmem.1 hmem.2.1 hmem.2.2.1
            hmem.2.2.2.1 hmem.2.2.2.2.1 hmem.2.2.2.2.2]
      · rw [if_neg hmem, getCell_set_range_of_not_mem out _ _ _ _ _ _ _ a b c hmem]
  intro m
  induction m with
  | zero =>
    intro f g xs ys zs bits hf hg hxN hyN hzN henc out pre rest hcub
    obtain ⟨f', rfl⟩ : ∃ f', f = f' + 1 := ⟨f - 1, by omega⟩
    have hhom : is_subvolume_homogeneous data xs (xs + 2 ^ 0) ys (ys + 2 ^ 0)
        zs (zs + 2 ^ 0) = true := by
      apply hom_of_const data _ _ _ _ _ _ (getCell data xs ys zs)
      intro a b c h1 h2 h3 h4 h5 h6
      rw [pow_zero] at h2 h4 h6
      have : a = xs ∧ b = ys ∧ c = zs := by omega
      rw [this.1, this.2.1, this.2.2]
    rw [encodeGo, if_neg (cube_size_ne_zero xs ys zs 0), if_pos hhom] at henc
    have hbits : bits = [false, getCell data xs ys zs] :=
      (Except.ok.injEq _ _).mp henc |>.symm
    subst hbits
    exact leaf 0 g xs ys zs hg hxN hyN hzN hhom out pre rest hcub
  | succ m ih =>
    intro f g xs ys zs bits hf hg hxN hyN hzN henc out pre rest hcub
    obtain ⟨f', rfl⟩ : ∃ f', f = f' + 1 := ⟨f - 1, by omega⟩
    obtain ⟨g', rfl⟩ : ∃ g', g = g' + 1 := ⟨g - 1, by omega⟩
    rw [encodeGo, if_neg (cube_size_ne_zero xs ys zs (m + 1))] at henc
    by_cases hhom : is_subvolume_homogeneous data xs (xs + 2 ^ (m + 1)) ys
        (ys + 2 ^ (m + 1)) zs (zs + 2 ^ (m + 1)) = true
    · rw [if_pos hhom] at henc
      have hbits : bits = [false, getCell data xs ys zs] :=
        (Except.ok.injEq _ _).mp henc |>.symm
      subst hbits
      exact leaf (m + 1) (g' + 1) xs ys zs hg hxN hyN hzN hhom out pre rest hcub
    · rw [if_neg hhom] at henc
      have hsplitE : ∀ t : Nat, (t + 2 ^ (m + 1) + t) >>> 1 = t + 2 ^ m := by
        intro t
        simpa using split_mid_enc t (m + 1) (by omega)
      have hsplitD : ∀ t : Nat, (t + (t + 2 ^ (m + 1))) / 2 = t + 2 ^ m := by
        intro t
        simpa using split_mid_dec t (m + 1) (by omega)
      have hstep : ∀ t : Nat, t + 2 ^ (m + 1) = t + 2 ^ m + 2 ^ m := by
        intro t
        rw [pow_succ]
        omega
      rw [hsplitE xs, hsplitE ys, hsplitE zs] at henc
      obtain ⟨c0, hc0, henc⟩ := (exceptBind_eq_ok _ _ _).mp henc
      obtain ⟨c1, hc1, henc⟩ := (exceptBind_eq_ok _ _ _).mp henc
      obtain ⟨c2, hc2, henc⟩ := (exceptBind_eq_ok _ _ _).mp henc
      obtain ⟨c3, hc3, henc⟩ := (exceptBind_eq_ok _ _ _).mp henc
      obtain ⟨c4, hc4, henc⟩ := (exceptBind_eq_ok _ _ _).mp henc
      obtain ⟨c5, hc5, henc⟩ := (exceptBind_eq_ok _ _ _).mp henc
      obtain ⟨c6, hc6, henc⟩ := (exceptBind_eq_ok _ _ _).mp henc
      obtain ⟨c7, hc7, henc⟩ := (exceptBind_eq_ok _ _ _).mp henc
      have hbits : bits = true :: (c0 ++ c1 ++ c2 ++ c3 ++ c4 ++ c5 ++ c6 ++ c7) :=
        (Except.ok.injEq _ _).mp henc |>.symm
      subst hbits
      clear henc
      rw [hstep zs] at hc1
      rw [hstep ys] at hc2
      rw [hstep ys, hstep zs] at hc3
      rw [hstep xs] at hc4
      rw [hstep xs, hstep zs] at hc5
      rw [hstep xs, hstep ys] at hc6
      rw [hstep xs, hstep ys, hstep zs] at hc7
      -- decode the branch token, then the eight children in sequence
      have hpos : 1 ≤ 2 ^ m := Nat.one_le_two_pow
      have hxa : xs + 2 ^ m ≤ N := by
        have := hstep xs
        omega
      have hxb : xs + 2 ^ m + 2 ^ m ≤ N := by
        have := hstep xs
        omega
      have hya : ys + 2 ^ m ≤ N := by
        have := hstep ys
        omega
      have hyb : ys + 2 ^ m + 2 ^ m ≤ N := by
        have := hstep ys
        omega
      have hza : zs + 2 ^ m ≤ N := by
        have := hstep zs
        omega
      have hzb : zs + 2 ^ m + 2 ^ m ≤ N := by
        have := hstep zs
        omega
      have hmf : m < f' := by omega
      have hmg : m < g' := by omega
      obtain ⟨out1, hd0, hq1, hp0⟩ := ih f' g' xs ys zs c0 hmf hmg hxa hya hza
        hc0 out (pre ++ [true]) (c1 ++ c2 ++ c3 ++ c4 ++ c5 ++ c6 ++ c7 ++ rest)
        hcub
      have e0 : (pre ++ [true]) ++ c0 ++
          (c1 ++ c2 ++ c3 ++ c4 ++ c5 ++ c6 ++ c7 ++ rest) =
          pre ++ (true :: (c0 ++ c1 ++ c2 ++ c3 ++ c4 ++ c5 ++ c6 ++ c7)) ++ rest := by
        simp
      rw [e0] at hd0
      obtain ⟨out2, hd1, hq2, hp1⟩ := ih f' g' xs ys (zs + 2 ^ m) c1 hmf hmg
        hxa hya hzb hc1 out1 (pre ++ (true :: c0))
        (c2 ++ c3 ++ c4 ++ c5 ++ c6 ++ c7 ++ rest) hq1
      have e1 : (pre ++ (true :: c0)) ++ c1 ++
          (c2 ++ c3 ++ c4 ++ c5 ++ c6 ++ c7 ++ rest) =
          pre ++ (true :: (c0 ++ c1 ++ c2 ++ c3 ++ c4 ++ c5 ++ c6 ++ c7)) ++ rest := by
        simp
      rw [e1] at hd1
      have l1 : (pre ++ (true :: c0)).length = (pre ++ [true]).length + c0.length := by
        simp only [List.length_append, List.length_cons, List.length_nil]
        omega
      rw [l1] at hd1
      obtain ⟨out3, hd2, hq3, hp2⟩ := ih f' g' xs (ys + 2 ^ m) zs c2 hmf hmg
        hxa hyb hza hc2 out2 (pre ++ (true :: (c0 ++ c1)))
        (c3 ++ c4 ++ c5 ++ c6 ++ c7 ++ rest) hq2
      have e2 : (pre ++ (true :: (c0 ++ c1))) ++ c2 ++
          (c3 ++ c4 ++ c5 ++ c6 ++ c7 ++ rest) =
          pre ++ (true :: (c0 ++ c1 ++ c2 ++ c3 ++ c4 ++ c5 ++ c6 ++ c7)) ++ rest := by
        simp
      rw [e2] at hd2
      have l2 : (pre ++ (true :: (c0 ++ c1))).length =
          (pre ++ [true]).length + c0.length + c1.length := by
        simp only [List.length_append, List.length_cons, List.length_nil]
        omega
      rw [l2] at hd2
      obtain ⟨out4, hd3, hq4, hp3⟩ := ih f' g' xs (ys + 2 ^ m) (zs + 2 ^ m) c3
        hmf hmg hxa hyb hzb hc3 out3 (pre ++ (true :: (c0 ++ c1 ++ c2)))
        (c4 ++ c5 ++ c6 ++ c7 ++ rest) hq3
      have e3 : (pre ++ (true :: (c0 ++ c1 ++ c2))) ++ c3 ++
          (c4 ++ c5 ++ c6 ++ c7 ++ rest) =
          pre ++ (true :: (c0 ++ c1 ++ c2 ++ c3 ++ c4 ++ c5 ++ c6 ++ c7)) ++ rest := by
        simp
      rw [e3] at hd3
      have l3 : (pre ++ (true :: (c0 ++ c1 ++ c2))).length =
          (pre ++ [true]).length + c0.length + c1.length + c2.length := by
        simp only [List.length_append, List.length_cons, List.length_nil]
        omega
      rw [l3] at hd3
      obtain ⟨out5, hd4, hq5, hp4⟩ := ih f' g' (xs + 2 ^ m) ys zs c4 hmf hmg
        hxb hya hza hc4 out4 (pre ++ (true :: (c0 ++ c1 ++ c2 ++ c3)))
        (c5 ++ c6 ++ c7 ++ rest) hq4
      have e4 : (pre ++ (true :: (c0 ++ c1 ++ c2 ++ c3))) ++ c4 ++
          (c5 ++ c6 ++ c7 ++ rest) =
          pre ++ (true :: (c0 ++ c1 ++ c2 ++ c3 ++ c4 ++ c5 ++ c6 ++ c7)) ++ rest := by
        simp
      rw [e4] at hd4
      have l4 : (pre ++ (true :: (c0 ++ c1 ++ c2 ++ c3))).length =
          (pre ++ [true]).length + c0.length + c1.length + c2.length + c3.length := by
        simp only [List.length_append, List.length_cons, List.length_nil]
        omega
      rw [l4] at hd4
      obtain ⟨out6, hd5, hq6, hp5⟩ := ih f' g' (xs + 2 ^ m) ys (zs + 2 ^ m) c5
        hmf hmg hxb hya hzb hc5 out5
        (pre ++ (true :: (c0 ++ c1 ++ c2 ++ c3 ++ c4))) (c6 ++ c7 ++ rest) hq5
      have e5 : (pre ++ (true :: (c0 ++ c1 ++ c2 ++ c3 ++ c4))) ++ c5 ++
          (c6 ++ c7 ++ rest) =
          pre ++ (true :: (c0 ++ c1 ++ c2 ++ c3 ++ c4 ++ c5 ++ c6 ++ c7)) ++ rest := by
        simp
      rw [e5] at hd5
      have l5 : (pre ++ (true :: (c0 ++ c1 ++ c2 ++ c3 ++ c4))).length =
          (pre ++ [true]).length + c0.length + c1.length + c2.length + c3.length +
            c4.length := by
        simp only [List.length_append, List.length_cons, List.length_nil]
        omega
      rw [l5] at hd5
      obtain ⟨out7, hd6, hq7, hp6⟩ := ih f' g' (xs + 2 ^ m) (ys + 2 ^ m) zs c6
        hmf hmg hxb hyb hza hc6 out6
        (pre ++ (true :: (c0 ++ c1 ++ c2 ++ c3 ++ c4 ++ c5))) (c7 ++ rest) hq6
      have e6 : (pre ++ (true :: (c0 ++ c1 ++ c2 ++ c3 ++ c4 ++ c5))) ++ c6 ++
          (c7 ++ rest) =
          pre ++ (true :: (c0 ++ c1 ++ c2 ++ c3 ++ c4 ++ c5 ++ c6 ++ c7)) ++ rest := by
        simp
      rw [e6] at hd6
      have l6 : (pre ++ (true :: (c0 ++ c1 ++ c2 ++ c3 ++ c4 ++ c5))).length =
          (pre ++ [true]).length + c0.length + c1.length + c2.length + c3.length +
            c4.length + c5.length := by
        simp only [List.length_append, List.length_cons, List.length_nil]
        omega
      rw [l6] at hd6
      obtain ⟨out8, hd7, hq8, hp7⟩ := ih f' g' (xs + 2 ^ m) (ys + 2 ^ m)
        (zs + 2 ^ m) c7 hmf hmg hxb hyb hzb hc7 out7
        (pre ++ (true :: (c0 ++ c1 ++ c2 ++ c3 ++ c4 ++ c5 ++ c6))) rest hq7
      have e7 : (pre ++ (true :: (c0 ++ c1 ++ c2 ++ c3 ++ c4 ++ c5 ++ c6))) ++ c7 ++
          rest =
          pre ++ (true :: (c0 ++ c1 ++ c2 ++ c3 ++ c4 ++ c5 ++ c6 ++ c7)) ++ rest := by
        simp
      rw [e7] at hd7
      have l7 : (pre ++ (true :: (c0 ++ c1 ++ c2 ++ c3 ++ c4 ++ c5 ++ c6))).length =
          (pre ++ [true]).length + c0.length + c1.length + c2.length + c3.length +
            c4.length + c5.length + c6.length := by
        simp only [List.length_append, List.length_cons, List.length_nil]
        omega
      rw [l7] at hd7
      have hl1 : (pre ++ [true]).length = pre.length + 1 := by
        simp
      rw [hl1] at hd0 hd1 hd2 hd3 hd4 hd5 hd6 hd7
      have htok := getD_concat_at pre
        (true :: (c0 ++ c1 ++ c2 ++ c3 ++ c4 ++ c5 ++ c6 ++ c7)) rest 0
        (by simp) false
      rw [Nat.add_zero] at htok
      refine ⟨out8, ?_, hq8, ?_⟩
      · rw [decodeGo,
          if_neg (by simp only [List.length_append, List.length_cons, ge_iff_le]; omega),
          if_neg (by rw [htok]; simp),
          hsplitD xs, hsplitD ys, hsplitD zs, hstep xs, hstep ys, hstep zs,
          hd0]
        simp only [exceptBind_ok]
        rw [hd1]
        simp only [exceptBind_ok]
        rw [hd2]
        simp only [exceptBind_ok]
        rw [hd3]
        simp only [exceptBind_ok]
        rw [hd4]
        simp only [exceptBind_ok]
        rw [hd5]
        simp only [exceptBind_ok]
        rw [hd6]
        simp only [exceptBind_ok]
        rw [hd7]
        simp only [exceptBind_ok]
        congr 2
        simp only [List.length_cons, List.length_append]
        omega
      · intro a b c
        rw [hp7 a b c, hp6 a b c, hp5 a b c, hp4 a b c, hp3 a b c, hp2 a b c,
          hp1 a b c, hp0 a b c]
        have h2 : (2 : Nat) ^ (m + 1) = 2 ^ m + 2 ^ m := by
          rw [pow_succ]
          omega
        have hpos2 : 1 ≤ 2 ^ m := Nat.one_le_two_pow
        split_ifs <;> first | rfl | (exfalso; omega)

theorem getD_append_at (pre Q : List α) (k : Nat) (d : α) :
    (pre ++ Q).getD (pre.length + k) d = Q.getD k d := by
  rw [List.getD_eq_getElem?_getD, List.getD_eq_getElem?_getD,
    List.getElem?_append_right (show pre.length ≤ pre.length + k by omega)]
  have hsub : pre.length + k - pre.length = k := by omega
  rw [hsub]

theorem getD_append_left (l r : List α) (k : Nat) (hk : k < l.length) (d : α) :
    (l ++ r).getD k d = l.getD k d := by
  rw [List.getD_eq_getElem?_getD, List.getD_eq_getElem?_getD,
    List.getElem?_append_left hk]

theorem getD_drop (l : List α) (n k : Nat) (d : α) :
    (l.drop n).getD k d = l.getD (n + k) d := by
  rw [List.getD_eq_getElem?_getD, List.getD_eq_getElem?_getD, List.getElem?_drop]

theorem getD_take (l : List α) (n k : Nat) (h : k < n) (d : α) :
    (l.take n).getD k d = l.getD k d := by
  rw [List.getD_eq_getElem?_getD, List.getD_eq_getElem?_getD,
    List.getElem?_take_of_lt h]

theorem drop_append_at (l r : List α) (k : Nat) :
    (l ++ r).drop (l.length + k) = r.drop k := by
  induction l with
  | nil => simp
  | cons a t ih =>
    simp only [List.cons_append, List.length_cons]
    have : t.length + 1 + k = (t.length + k) + 1 := by omega
    rw [this, List.drop_succ_cons]
    exact ih

set_option maxHeartbeats 1600000 in
/-- Decoding a strict prefix of one valid encoded subtree runs off the end of
the bit sequence and fails with `OutOfRange`. -/
theorem decodeGo_truncated (data : Vol) (N : Nat) :
    ∀ m f g xs ys zs bits, m < f → m < g →
      xs + 2 ^ m ≤ N → ys + 2 ^ m ≤ N → zs + 2 ^ m ≤ N →
      encodeGo data xs (xs + 2 ^ m) ys (ys + 2 ^ m) zs (zs + 2 ^ m) f =
        .ok bits →
      ∀ out pre Q rest, cuboid out N N N → rest ≠ [] → Q ++ rest = bits →
        decodeGo (pre ++ Q) out pre.length xs (xs + 2 ^ m) ys (ys + 2 ^ m) zs
          (zs + 2 ^ m) g = .error .OutOfRange := by
  have leafT : ∀ g' xs xe ys ye zs ze (out : Vol) (pre Q rest : List Bool)
      (v : Bool), rest ≠ [] → Q ++ rest = [false, v] →
      decodeGo (pre ++ Q) out pre.length xs xe ys ye zs ze (g' + 1) =
        .error .OutOfRange := by
    intro g' xs xe ys ye zs ze out pre Q rest v hrest hQ
    rcases Q with - | ⟨q, Q1⟩
    · rw [List.append_nil, decodeGo, if_pos (by omega)]
    · rcases Q1 with - | ⟨q2, Q2⟩
      · simp only [List.cons_append, List.nil_append, List.cons.injEq] at hQ
        obtain ⟨rfl, -⟩ := hQ
        have htok := getD_append_at pre [false] 0 false
        rw [Nat.add_zero] at htok
        rw [decodeGo, if_neg (by simp), if_pos (by rw [htok]; rfl),
          if_pos (by simp)]
      · exfalso
        simp only [List.cons_append, List.cons.injEq] at hQ
        exact hrest (List.append_eq_nil.mp hQ.2.2).2
  intro m
  induction m with
  | zero =>
    intro f g xs ys zs bits hf hg hxN hyN hzN henc out pre Q rest hcub hrest hQ
    obtain ⟨f', rfl⟩ : ∃ f', f = f' + 1 := ⟨f - 1, by omega⟩
    obtain ⟨g', rfl⟩ : ∃ g', g = g' + 1 := ⟨g - 1, by omega⟩
    have hhom : is_subvolume_homogeneous data xs (xs + 2 ^ 0) ys (ys + 2 ^ 0)
        zs (zs + 2 ^ 0) = true := by
      apply hom_of_const data _ _ _ _ _ _ (getCell data xs ys zs)
      intro a b c h1 h2 h3 h4 h5 h6
      rw [pow_zero] at h2 h4 h6
      have : a = xs ∧ b = ys ∧ c = zs := by omega
      rw [this.1, this.2.1, this.2.2]
    rw [encodeGo, if_neg (cube_size_ne_zero xs ys zs 0), if_pos hhom] at henc
    have hbits : bits = [false, getCell data xs ys zs] :=
      (Except.ok.injEq _ _).mp henc |>.symm
    subst hbits
    exact leafT g' _ _ _ _ _ _ out pre Q rest _ hrest hQ
  | succ m ihm =>
    intro f g xs ys zs bits hf hg hxN hyN hzN henc out pre Q rest hcub hrest hQ
    obtain ⟨f', rfl⟩ : ∃ f', f = f' + 1 := ⟨f - 1, by omega⟩
    obtain ⟨g', rfl⟩ : ∃ g', g = g' + 1 := ⟨g - 1, by omega⟩
    rw [encodeGo, if_neg (cube_size_ne_zero xs ys zs (m + 1))] at henc
    by_cases hhom : is_subvolume_homogeneous data xs (xs + 2 ^ (m + 1)) ys
        (ys + 2 ^ (m + 1)) zs (zs + 2 ^ (m + 1)) = true
    · rw [if_pos hhom] at henc
      have hbits : bits = [false, getCell data xs ys zs] :=
        (Except.ok.injEq _ _).mp henc |>.symm
      subst hbits
      exact leafT g' _ _ _ _ _ _ out pre Q rest _ hrest hQ
    · rw [if_neg hhom] at henc
      have hsplitE : ∀ t : Nat, (t + 2 ^ (m + 1) + t) >>> 1 = t + 2 ^ m := by
        intro t
        simpa using split_mid_enc t (m + 1) (by omega)
      have hsplitD : ∀ t : Nat, (t + (t + 2 ^ (m + 1))) / 2 = t + 2 ^ m := by
        intro t
        simpa using split_mid_dec t (m + 1) (by omega)
      have hstep : ∀ t : Nat, t + 2 ^ (m + 1) = t + 2 ^ m + 2 ^ m := by
        intro t
        rw [pow_succ]
        omega
      rw [hsplitE xs, hsplitE ys, hsplitE zs] at henc
      obtain ⟨c0, hc0, henc⟩ := (exceptBind_eq_ok _ _ _).mp henc
      obtain ⟨c1, hc1, henc⟩ := (exceptBind_eq_ok _ _ _).mp henc
      obtain ⟨c2, hc2, henc⟩ := (exceptBind_eq_ok _ _ _).mp henc
      obtain ⟨c3, hc3, henc⟩ := (exceptBind_eq_ok _ _ _).mp henc
      obtain ⟨c4, hc4, henc⟩ := (exceptBind_eq_ok _ _ _).mp henc
      obtain ⟨c5, hc5, henc⟩ := (exceptBind_eq_ok _ _ _).mp henc
      obtain ⟨c6, hc6, henc⟩ := (exceptBind_eq_ok _ _ _).mp henc
      obtain ⟨c7, hc7, henc⟩ := (exceptBind_eq_ok _ _ _).mp henc
      have hbits : bits = true :: (c0 ++ c1 ++ c2 ++ c3 ++ c4 ++ c5 ++ c6 ++ c7) :=
        (Except.ok.injEq _ _).mp henc |>.symm
      subst hbits
      clear henc
      rw [hstep zs] at hc1
      rw [hstep ys] at hc2
      rw [hstep ys, hstep zs] at hc3
      rw [hstep xs] at hc4
      rw [hstep xs, hstep zs] at hc5
      rw [hstep xs, hstep ys] at hc6
      rw [hstep xs, hstep ys, hstep zs] at hc7
      have hpos : 1 ≤ 2 ^ m := Nat.one_le_two_pow
      have hxa : xs + 2 ^ m ≤ N := by
        have := hstep xs
        omega
      have hxb : xs + 2 ^ m + 2 ^ m ≤ N := by
        have := hstep xs
        omega
      have hya : ys + 2 ^ m ≤ N := by
        have := hstep ys
        omega
      have hyb : ys + 2 ^ m + 2 ^ m ≤ N := by
        have := hstep ys
        omega
      have hza : zs + 2 ^ m ≤ N := by
        have := hstep zs
        omega
      have hzb : zs + 2 ^ m + 2 ^ m ≤ N := by
        have := hstep zs
        omega
      have hmf : m < f' := by omega
      have hmg : m < g' := by omega
      rcases Q with - | ⟨q, T0⟩
      · rw [List.append_nil, decodeGo, if_pos (by omega)]
      · rw [List.cons_append, List.cons.injEq] at hQ
        obtain ⟨rfl, hT0⟩ := hQ
        have hC : c0 ++ c1 ++ c2 ++ c3 ++ c4 ++ c5 ++ c6 ++ c7 =
            c0 ++ (c1 ++ (c2 ++ (c3 ++ (c4 ++ (c5 ++ (c6 ++ c7)))))) := by
          simp
        rw [hC] at hT0
        have htok := getD_append_at pre (true :: T0) 0 false
        rw [Nat.add_zero] at htok
        rw [decodeGo,
          if_neg (by simp only [List.length_append, List.length_cons, ge_iff_le]; omega),
          if_neg (by rw [htok]; simp),
          hsplitD xs, hsplitD ys, hsplitD zs, hstep xs, hstep ys, hstep zs]
        have hsplit0 : (∃ S, S ≠ [] ∧ T0 ++ S = c0) ∨
            (∃ T1, T0 = c0 ++ T1 ∧ T1 ++ rest = c1 ++ (c2 ++ (c3 ++ (c4 ++ (c5 ++ (c6 ++ (c7))))))) := by
          rcases List.append_eq_append_iff.mp hT0 with ⟨S, hS1, hS2⟩ | ⟨U, hU1, hU2⟩
          · by_cases hSnil : S = []
            · right
              refine ⟨[], by simp [hS1, hSnil], ?_⟩
              rw [hSnil] at hS2
              simp only [List.nil_append] at hS2 ⊢
              exact hS2
            · left
              exact ⟨S, hSnil, hS1.symm⟩
          · right
            exact ⟨U, hU1, hU2.symm⟩
        rcases hsplit0 with hh | hh
        · obtain ⟨S, hSnil, hQS⟩ := hh
          have hOOR := ihm f' g' xs ys zs c0 hmf hmg hxa hya hza
            hc0 out (pre ++ [true]) T0 S hcub hSnil hQS
          have eA : (pre ++ [true]) ++ T0 = pre ++ (true :: (T0)) := by
            simp
          have lA : ((pre ++ [true]) : List Bool).length = pre.length + 1 := by
            simp only [List.length_append, List.length_cons, List.length_nil]
            try omega
          rw [eA, lA] at hOOR
          rw [hOOR]
          simp only [exceptBind_error]
        · obtain ⟨T1, hTdec0, hT1⟩ := hh
          subst hTdec0
          obtain ⟨out1, hd0, hq1, hdp0⟩ := decodeGo_encodeGo data N m f' g'
            xs ys zs c0 hmf hmg hxa hya hza hc0 out (pre ++ [true]) T1 hcub
          have eB : (pre ++ [true]) ++ c0 ++ T1 = pre ++ (true :: (c0 ++ T1)) := by
            simp
          have lB0 : ((pre ++ [true]) : List Bool).length = pre.length + 1 := by
            simp only [List.length_append, List.length_cons, List.length_nil]
            try omega
          rw [eB, lB0] at hd0
          rw [hd0]
          simp only [exceptBind_ok]
          have hsplit1 : (∃ S, S ≠ [] ∧ T1 ++ S = c1) ∨
              (∃ T2, T1 = c1 ++ T2 ∧ T2 ++ rest = c2 ++ (c3 ++ (c4 ++ (c5 ++ (c6 ++ (c7)))))) := by
            rcases List.append_eq_append_iff.mp hT1 with ⟨S, hS1, hS2⟩ | ⟨U, hU1, hU2⟩
            · by_cases hSnil : S = []
              · right
                refine ⟨[], by simp [hS1, hSnil], ?_⟩
                rw [hSnil] at hS2
                simp only [List.nil_append] at hS2 ⊢
                exact hS2
              · left
                exact ⟨S, hSnil, hS1.symm⟩
            · right
              exact ⟨U, hU1, hU2.symm⟩
          rcases hsplit1 with hh | hh
          · obtain ⟨S, hSnil, hQS⟩ := hh
            have hOOR := ihm f' g' xs ys (zs + 2 ^ m) c1 hmf hmg hxa hya hzb
              hc1 out1 (pre ++ (true :: (c0))) T1 S hq1 hSnil hQS
            have eA : (pre ++ (true :: (c0))) ++ T1 = pre ++ (true :: (c0 ++ (T1))) := by
              simp
            have lA : ((pre ++ (true :: (c0))) : List Bool).length = pre.length + 1 + c0.length := by
              simp only [List.length_append, List.length_cons, List.length_nil]
              try omega
            rw [eA, lA] at hOOR
            rw [hOOR]
            simp only [exceptBind_error]
          · obtain ⟨T2, hTdec1, hT2⟩ := hh
            subst hTdec1
            obtain ⟨out2, hd1, hq2, hdp1⟩ := decodeGo_encodeGo data N m f' g'
              xs ys (zs + 2 ^ m) c1 hmf hmg hxa hya hzb hc1 out1 (pre ++ (true :: (c0))) T2 hq1
            have eB : (pre ++ (true :: (c0))) ++ c1 ++ T2 = pre ++ (true :: (c0 ++ (c1 ++ T2))) := by
              simp
            have lB1 : ((pre ++ (true :: (c0))) : List Bool).length = pre.length + 1 + c0.length := by
              simp only [List.length_append, List.length_cons, List.length_nil]
              try omega
            rw [eB, lB1] at hd1
            rw [hd1]
            simp only [exceptBind_ok]
            have hsplit2 : (∃ S, S ≠ [] ∧ T2 ++ S = c2) ∨
                (∃ T3, T2 = c2 ++ T3 ∧ T3 ++ rest = c3 ++ (c4 ++ (c5 ++ (c6 ++ (c7))))) := by
              rcases List.append_eq_append_iff.mp hT2 with ⟨S, hS1, hS2⟩ | ⟨U, hU1, hU2⟩
              · by_cases hSnil : S = []
                · right
                  refine ⟨[], by simp [hS1, hSnil], ?_⟩
                  rw [hSnil] at hS2
                  simp only [List.nil_append] at hS2 ⊢
                  exact hS2
                · left
                  exact ⟨S, hSnil, hS1.symm⟩
              · right
                exact ⟨U, hU1, hU2.symm⟩
            rcases hsplit2 with hh | hh
            · obtain ⟨S, hSnil, hQS⟩ := hh
              have hOOR := ihm f' g' xs (ys + 2 ^ m) zs c2 hmf hmg hxa hyb hza
                hc2 out2 (pre ++ (true :: (c0 ++ c1))) T2 S hq2 hSnil hQS
              have eA : (pre ++ (true :: (c0 ++ c1))) ++ T2 = pre ++ (true :: (c0 ++ (c1 ++ (T2)))) := by
                simp
              have lA : ((pre ++ (true :: (c0 ++ c1))) : List Bool).length = pre.length + 1 + c0.length + c1.length := by
                simp only [List.length_append, List.length_cons, List.length_nil]
                try omega
              rw [eA, lA] at hOOR
              rw [hOOR]
              simp only [exceptBind_error]
            · obtain ⟨T3, hTdec2, hT3⟩ := hh
              subst hTdec2
              obtain ⟨out3, hd2, hq3, hdp2⟩ := decodeGo_encodeGo data N m f' g'
                xs (ys + 2 ^ m) zs c2 hmf hmg hxa hyb hza hc2 out2 (pre ++ (true :: (c0 ++ c1))) T3 hq2
              have eB : (pre ++ (true :: (c0 ++ c1))) ++ c2 ++ T3 = pre ++ (true :: (c0 ++ (c1 ++ (c2 ++ T3)))) := by
                simp
              have lB2 : ((pre ++ (true :: (c0 ++ c1))) : List Bool).length = pre.length + 1 + c0.length + c1.length := by
                simp only [List.length_append, List.length_cons, List.length_nil]
                try omega
              rw [eB, lB2] at hd2
              rw [hd2]
              simp only [exceptBind_ok]
              have hsplit3 : (∃ S, S ≠ [] ∧ T3 ++ S = c3) ∨
                  (∃ T4, T3 = c3 ++ T4 ∧ T4 ++ rest = c4 ++ (c5 ++ (c6 ++ (c7)))) := by
                rcases List.append_eq_append_iff.mp hT3 with ⟨S, hS1, hS2⟩ | ⟨U, hU1, hU2⟩
                · by_cases hSnil : S = []
                  · right
                    refine ⟨[], by simp [hS1, hSnil], ?_⟩
                    rw [hSnil] at hS2
                    simp only [List.nil_append] at hS2 ⊢
                    exact hS2
                  · left
                    exact ⟨S, hSnil, hS1.symm⟩
                · right
                  exact ⟨U, hU1, hU2.symm⟩
              rcases hsplit3 with hh | hh
              · obtain ⟨S, hSnil, hQS⟩ := hh
                have hOOR := ihm f' g' xs (ys + 2 ^ m) (zs + 2 ^ m) c3 hmf hmg hxa hyb hzb
                  hc3 out3 (pre ++ (true :: (c0 ++ c1 ++ c2))) T3 S hq3 hSnil hQS
                have eA : (pre ++ (true :: (c0 ++ c1 ++ c2))) ++ T3 = pre ++ (true :: (c0 ++ (c1 ++ (c2 ++ (T3))))) := by
                  simp
                have lA : ((pre ++ (true :: (c0 ++ c1 ++ c2))) : List Bool).length = pre.length + 1 + c0.length + c1.length + c2.length := by
                  simp only [List.length_append, List.length_cons, List.length_nil]
                  try omega
                rw [eA, lA] at hOOR
                rw [hOOR]
                simp only [exceptBind_error]
              · obtain ⟨T4, hTdec3, hT4⟩ := hh
                subst hTdec3
                obtain ⟨out4, hd3, hq4, hdp3⟩ := decodeGo_encodeGo data N m f' g'
                  xs (ys + 2 ^ m) (zs + 2 ^ m) c3 hmf hmg hxa hyb hzb hc3 out3 (pre ++ (true :: (c0 ++ c1 ++ c2))) T4 hq3
                have eB : (pre ++ (true :: (c0 ++ c1 ++ c2))) ++ c3 ++ T4 = pre ++ (true :: (c0 ++ (c1 ++ (c2 ++ (c3 ++ T4))))) := by
                  simp
                have lB3 : ((pre ++ (true :: (c0 ++ c1 ++ c2))) : List Bool).length = pre.length + 1 + c0.length + c1.length + c2.length := by
                  simp only [List.length_append, List.length_cons, List.length_nil]
                  try omega
                rw [eB, lB3] at hd3
                rw [hd3]
                simp only [exceptBind_ok]
                have hsplit4 : (∃ S, S ≠ [] ∧ T4 ++ S = c4) ∨
                    (∃ T5, T4 = c4 ++ T5 ∧ T5 ++ rest = c5 ++ (c6 ++ (c7))) := by
                  rcases List.append_eq_append_iff.mp hT4 with ⟨S, hS1, hS2⟩ | ⟨U, hU1, hU2⟩
                  · by_cases hSnil : S = []
                    · right
                      refine ⟨[], by simp [hS1, hSnil], ?_⟩
                      rw [hSnil] at hS2
                      simp only [List.nil_append] at hS2 ⊢
                      exact hS2
                    · left
                      exact ⟨S, hSnil, hS1.symm⟩
                  · right
                    exact ⟨U, hU1, hU2.symm⟩
                rcases hsplit4 with hh | hh
                · obtain ⟨S, hSnil, hQS⟩ := hh
                  have hOOR := ihm f' g' (xs + 2 ^ m) ys zs c4 hmf hmg hxb hya hza
                    hc4 out4 (pre ++ (true :: (c0 ++ c1 ++ c2 ++ c3))) T4 S hq4 hSnil hQS
                  have eA : (pre ++ (true :: (c0 ++ c1 ++ c2 ++ c3))) ++ T4 = pre ++ (true :: (c0 ++ (c1 ++ (c2 ++ (c3 ++ (T4)))))) := by
                    simp
                  have lA : ((pre ++ (true :: (c0 ++ c1 ++ c2 ++ c3))) : List Bool).length = pre.length + 1 + c0.length + c1.length + c2.length + c3.length := by
                    simp only [List.length_append, List.length_cons, List.length_nil]
                    try omega
                  rw [eA, lA] at hOOR
                  rw [hOOR]
                  simp only [exceptBind_error]
                · obtain ⟨T5, hTdec4, hT5⟩ := hh
                  subst hTdec4
                  obtain ⟨out5, hd4, hq5, hdp4⟩ := decodeGo_encodeGo data N m f' g'
                    (xs + 2 ^ m) ys zs c4 hmf hmg hxb hya hza hc4 out4 (pre ++ (true :: (c0 ++ c1 ++ c2 ++ c3))) T5 hq4
                  have eB : (pre ++ (true :: (c0 ++ c1 ++ c2 ++ c3))) ++ c4 ++ T5 = pre ++ (true :: (c0 ++ (c1 ++ (c2 ++ (c3 ++ (c4 ++ T5)))))) := by
                    simp
                  have lB4 : ((pre ++ (true :: (c0 ++ c1 ++ c2 ++ c3))) : List Bool).length = pre.length + 1 + c0.length + c1.length + c2.length + c3.length := by
                    simp only [List.length_append, List.length_cons, List.length_nil]
                    try omega
                  rw [eB, lB4] at hd4
                  rw [hd4]
                  simp only [exceptBind_ok]
                  have hsplit5 : (∃ S, S ≠ [] ∧ T5 ++ S = c5) ∨
                      (∃ T6, T5 = c5 ++ T6 ∧ T6 ++ rest = c6 ++ (c7)) := by
                    rcases List.append_eq_append_iff.mp hT5 with ⟨S, hS1, hS2⟩ | ⟨U, hU1, hU2⟩
                    · by_cases hSnil : S = []
                      · right
                        refine ⟨[], by simp [hS1, hSnil], ?_⟩
                        rw [hSnil] at hS2
                        simp only [List.nil_append] at hS2 ⊢
                        exact hS2
                      · left
                        exact ⟨S, hSnil, hS1.symm⟩
                    · right
                      exact ⟨U, hU1, hU2.symm⟩
                  rcases hsplit5 with hh | hh
                  · obtain ⟨S, hSnil, hQS⟩ := hh
                    have hOOR := ihm f' g' (xs + 2 ^ m) ys (zs + 2 ^ m) c5 hmf hmg hxb hya hzb
                      hc5 out5 (pre ++ (true :: (c0 ++ c1 ++ c2 ++ c3 ++ c4))) T5 S hq5 hSnil hQS
                    have eA : (pre ++ (true :: (c0 ++ c1 ++ c2 ++ c3 ++ c4))) ++ T5 = pre ++ (true :: (c0 ++ (c1 ++ (c2 ++ (c3 ++ (c4 ++ (T5))))))) := by
                      simp
                    have lA : ((pre ++ (true :: (c0 ++ c1 ++ c2 ++ c3 ++ c4))) : List Bool).length = pre.length + 1 + c0.length + c1.length + c2.length + c3.length + c4.length := by
                      simp only [List.length_append, List.length_cons, List.length_nil]
                      try omega
                    rw [eA, lA] at hOOR
                    rw [hOOR]
                    simp only [exceptBind_error]
                  · obtain ⟨T6, hTdec5, hT6⟩ := hh
                    subst hTdec5
                    obtain ⟨out6, hd5, hq6, hdp5⟩ := decodeGo_encodeGo data N m f' g'
                      (xs + 2 ^ m) ys (zs + 2 ^ m) c5 hmf hmg hxb hya hzb hc5 out5 (pre ++ (true :: (c0 ++ c1 ++ c2 ++ c3 ++ c4))) T6 hq5
                    have eB : (pre ++ (true :: (c0 ++ c1 ++ c2 ++ c3 ++ c4))) ++ c5 ++ T6 = pre ++ (true :: (c0 ++ (c1 ++ (c2 ++ (c3 ++ (c4 ++ (c5 ++ T6))))))) := by
                      simp
                    have lB5 : ((pre ++ (true :: (c0 ++ c1 ++ c2 ++ c3 ++ c4))) : List Bool).length = pre.length + 1 + c0.length + c1.length + c2.length + c3.length + c4.length := by
                      simp only [List.length_append, List.length_cons, List.length_nil]
                      try omega
                    rw [eB, lB5] at hd5
                    rw [hd5]
                    simp only [exceptBind_ok]
                    have hsplit6 : (∃ S, S ≠ [] ∧ T6 ++ S = c6) ∨
                        (∃ T7, T6 = c6 ++ T7 ∧ T7 ++ rest = c7) := by
                      rcases List.append_eq_append_iff.mp hT6 with ⟨S, hS1, hS2⟩ | ⟨U, hU1, hU2⟩
                      · by_cases hSnil : S = []
                        · right
                          refine ⟨[], by simp [hS1, hSnil], ?_⟩
                          rw [hSnil] at hS2
                          simp only [List.nil_append] at hS2 ⊢
                          exact hS2
                        · left
                          exact ⟨S, hSnil, hS1.symm⟩
                      · right
                        exact ⟨U, hU1, hU2.symm⟩
                    rcases hsplit6 with hh | hh
                    · obtain ⟨S, hSnil, hQS⟩ := hh
                      have hOOR := ihm f' g' (xs + 2 ^ m) (ys + 2 ^ m) zs c6 hmf hmg hxb hyb hza
                        hc6 out6 (pre ++ (true :: (c0 ++ c1 ++ c2 ++ c3 ++ c4 ++ c5))) T6 S hq6 hSnil hQS
                      have eA : (pre ++ (true :: (c0 ++ c1 ++ c2 ++ c3 ++ c4 ++ c5))) ++ T6 = pre ++ (true :: (c0 ++ (c1 ++ (c2 ++ (c3 ++ (c4 ++ (c5 ++ (T6)))))))) := by
                        simp
                      have lA : ((pre ++ (true :: (c0 ++ c1 ++ c2 ++ c3 ++ c4 ++ c5))) : List Bool).length = pre.length + 1 + c0.length + c1.length + c2.length + c3.length + c4.length + c5.length := by
                        simp only [List.length_append, List.length_cons, List.length_nil]
                        try omega
                      rw [eA, lA] at hOOR
                      rw [hOOR]
                      simp only [exceptBind_error]
                    · obtain ⟨T7, hTdec6, hT7⟩ := hh
                      subst hTdec6
                      obtain ⟨out7, hd6, hq7, hdp6⟩ := decodeGo_encodeGo data N m f' g'
                        (xs + 2 ^ m) (ys + 2 ^ m) zs c6 hmf hmg hxb hyb hza hc6 out6 (pre ++ (true :: (c0 ++ c1 ++ c2 ++ c3 ++ c4 ++ c5))) T7 hq6
                      have eB : (pre ++ (true :: (c0 ++ c1 ++ c2 ++ c3 ++ c4 ++ c5))) ++ c6 ++ T7 = pre ++ (true :: (c0 ++ (c1 ++ (c2 ++ (c3 ++ (c4 ++ (c5 ++ (c6 ++ T7)))))))) := by
                        simp
                      have lB6 : ((pre ++ (true :: (c0 ++ c1 ++ c2 ++ c3 ++ c4 ++ c5))) : List Bool).length = pre.length + 1 + c0.length + c1.length + c2.length + c3.length + c4.length + c5.length := by
                        simp only [List.length_append, List.length_cons, List.length_nil]
                        try omega
                      rw [eB, lB6] at hd6
                      rw [hd6]
                      simp only [exceptBind_ok]
                      rw [← List.append_nil c7] at hT7
                      have hsplit7 : (∃ S, S ≠ [] ∧ T7 ++ S = c7) ∨
                          (∃ T8, T7 = c7 ++ T8 ∧ T8 ++ rest = []) := by
                        rcases List.append_eq_append_iff.mp hT7 with ⟨S, hS1, hS2⟩ | ⟨U, hU1, hU2⟩
                        · by_cases hSnil : S = []
                          · right
                            refine ⟨[], by simp [hS1, hSnil], ?_⟩
                            rw [hSnil] at hS2
                            simp only [List.nil_append] at hS2 ⊢
                            exact hS2
                          · left
                            exact ⟨S, hSnil, hS1.symm⟩
                        · right
                          exact ⟨U, hU1, hU2.symm⟩
                      rcases hsplit7 with hh | hh
                      · obtain ⟨S, hSnil, hQS⟩ := hh
                        have hOOR := ihm f' g' (xs + 2 ^ m) (ys + 2 ^ m) (zs + 2 ^ m) c7 hmf hmg hxb hyb hzb
                          hc7 out7 (pre ++ (true :: (c0 ++ c1 ++ c2 ++ c3 ++ c4 ++ c5 ++ c6))) T7 S hq7 hSnil hQS
                        have eA : (pre ++ (true :: (c0 ++ c1 ++ c2 ++ c3 ++ c4 ++ c5 ++ c6))) ++ T7 = pre ++ (true :: (c0 ++ (c1 ++ (c2 ++ (c3 ++ (c4 ++ (c5 ++ (c6 ++ (T7))))))))) := by
                          simp
                        have lA : ((pre ++ (true :: (c0 ++ c1 ++ c2 ++ c3 ++ c4 ++ c5 ++ c6))) : List Bool).length = pre.length + 1 + c0.length + c1.length + c2.length + c3.length + c4.length + c5.length + c6.length := by
                          simp only [List.length_append, List.length_cons, List.length_nil]
                          try omega
                        rw [eA, lA] at hOOR
                        rw [hOOR]
                        simp only [exceptBind_error]
                      · obtain ⟨T8, hTdec7, hT8⟩ := hh
                        subst hTdec7
                        exact absurd (List.append_eq_nil.mp hT8).2 hrest

/-! ## Bit-packing and header lemmas -/

theorem bitsOfByte_byteOfBits (a b c d e f g h : Bool) :
    bitsOfByte (byteOfBits [a, b, c, d, e, f, g, h]) = [a, b, c, d, e, f, g, h] := by
  cases a <;> cases b <;> cases c <;> cases d <;> cases e <;> cases f <;>
    cases g <;> cases h <;> decide

theorem unpack_packBytes : ∀ (n : Nat) (bits : List Bool), bits.length ≤ n →
    bits.length % 8 = 0 → ((packBytes bits).map bitsOfByte).flatten = bits := by
  intro n
  induction n with
  | zero =>
    intro bits hle _
    have : bits = [] := List.eq_nil_of_length_eq_zero (by omega)
    subst this
    rfl
  | succ n ih =>
    intro bits hle hmod
    rcases bits with - | ⟨b0, - | ⟨b1, - | ⟨b2, - | ⟨b3, - | ⟨b4, - | ⟨b5,
      - | ⟨b6, - | ⟨b7, rest⟩⟩⟩⟩⟩⟩⟩⟩
    · rfl
    all_goals first
      | (exfalso
         simp only [List.length_cons, List.length_nil] at hmod
         omega)
      | (simp only [packBytes, List.map_cons, List.flatten_cons,
          bitsOfByte_byteOfBits, List.cons_append, List.nil_append]
         rw [ih rest (by simp at hle; omega) (by simp at hmod; omega)])

theorem packBytes_length : ∀ (n : Nat) (bits : List Bool), bits.length ≤ n →
    bits.length % 8 = 0 → (packBytes bits).length = bits.length / 8 := by
  intro n
  induction n with
  | zero =>
    intro bits hle _
    have : bits = [] := List.eq_nil_of_length_eq_zero (by omega)
    subst this
    rfl
  | succ n ih =>
    intro bits hle hmod
    rcases bits with - | ⟨b0, - | ⟨b1, - | ⟨b2, - | ⟨b3, - | ⟨b4, - | ⟨b5,
      - | ⟨b6, - | ⟨b7, rest⟩⟩⟩⟩⟩⟩⟩⟩
    · rfl
    all_goals first
      | (exfalso
         simp only [List.length_cons, List.length_nil] at hmod
         omega)
      | (show (byteOfBits [b0, b1, b2, b3, b4, b5, b6, b7] ::
              packBytes rest).length =
            (b0 :: b1 :: b2 :: b3 :: b4 :: b5 :: b6 :: b7 :: rest).length / 8
         rw [List.length_cons,
           ih rest (by simp at hle; omega) (by simp at hmod; omega)]
         simp only [List.length_cons]
         omega)

theorem pack_chars_le32 (a : Nat) (r : List Nat) :
    pack_chars (le32 a ++ r) = a % 2 ^ 32 := by
  have h0 : (le32 a ++ r).getD 0 0 = a % 2 ^ 32 % 256 :=
    getD_append_left _ _ _ (by simp [le32]) _
  have h1 : (le32 a ++ r).getD 1 0 = a % 2 ^ 32 / 256 % 256 :=
    getD_append_left _ _ _ (by simp [le32]) _
  have h2 : (le32 a ++ r).getD 2 0 = a % 2 ^ 32 / 65536 % 256 :=
    getD_append_left _ _ _ (by simp [le32]) _
  have h3 : (le32 a ++ r).getD 3 0 = a % 2 ^ 32 / 16777216 % 256 :=
    getD_append_left _ _ _ (by simp [le32]) _
  rw [pack_chars, h0, h1, h2, h3]
  omega

theorem pack_chars_le32_nil (a : Nat) : pack_chars (le32 a) = a % 2 ^ 32 := by
  have := pack_chars_le32 a []
  simpa using this

theorem flags_decode (pl b01 : Nat) (hpl : pl ≤ 7) (hb : b01 ≤ 1) :
    ((pl <<< 5) ||| (b01 <<< 4)) >>> 5 = pl ∧
      (((pl <<< 5) ||| (b01 <<< 4)) >>> 4) &&& 1 = b01 := by
  interval_cases pl <;> interval_cases b01 <;> exact ⟨by decide, by decide⟩

theorem pad_spec (len : Nat) :
    (if len % 8 = 0 then 0 else 8 - len % 8) ≤ 7 ∧
      (len + if len % 8 = 0 then 0 else 8 - len % 8) % 8 = 0 := by
  by_cases h : len % 8 = 0 <;> simp [h] <;> omega

/-! ## Cuboid extensionality and size -/

theorem getCell_eq_getElem (V : Vol) (a b c : Nat) (ha : a < V.length)
    (hb : b < V[a].length) (hc : c < V[a][b].length) :
    getCell V a b c = V[a][b][c] := by
  unfold getCell
  have h1 : V.getD a [] = V[a] := by
    rw [List.getD_eq_getElem?_getD, List.getElem?_eq_getElem ha]
    rfl
  rw [h1]
  have h2 : V[a].getD b [] = V[a][b] := by
    rw [List.getD_eq_getElem?_getD, List.getElem?_eq_getElem hb]
    rfl
  rw [h2]
  rw [List.getD_eq_getElem?_getD, List.getElem?_eq_getElem hc]
  rfl

theorem cuboid_ext (V W : Vol) (x y z : Nat) (hV : cuboid V x y z)
    (hW : cuboid W x y z)
    (h : ∀ a b c, a < x → b < y → c < z → getCell V a b c = getCell W a b c) :
    V = W := by
  obtain ⟨hVx, hVp⟩ := hV
  obtain ⟨hWx, hWp⟩ := hW
  apply List.ext_getElem (by omega)
  intro a haV haW
  have hpV := hVp V[a] (List.getElem_mem haV)
  have hpW := hWp W[a] (List.getElem_mem haW)
  apply List.ext_getElem (by omega)
  intro b hbV hbW
  have hrV := hpV.2 V[a][b] (List.getElem_mem hbV)
  have hrW := hpW.2 W[a][b] (List.getElem_mem hbW)
  apply List.ext_getElem (by omega)
  intro c hcV hcW
  rw [← getCell_eq_getElem V a b c haV hbV hcV,
    ← getCell_eq_getElem W a b c haW hbW hcW]
  exact h a b c (by omega) (by omega) (by omega)

theorem getCell_out_of_range (V : Vol) (x y z a b c : Nat) (h : cuboid V x y z)
    (hout : x ≤ a ∨ y ≤ b ∨ z ≤ c) : getCell V a b c = false := by
  obtain ⟨hx, hpl⟩ := h
  unfold getCell
  by_cases ha : a < V.length
  · have hplane := hpl V[a] (List.getElem_mem ha)
    have h1 : V.getD a [] = V[a] := by
      rw [List.getD_eq_getElem?_getD, List.getElem?_eq_getElem ha]
      rfl
    rw [h1]
    by_cases hb : b < V[a].length
    · have hrow := hplane.2 V[a][b] (List.getElem_mem hb)
      have h2 : V[a].getD b [] = V[a][b] := by
        rw [List.getD_eq_getElem?_getD, List.getElem?_eq_getElem hb]
        rfl
      rw [h2]
      have hcz : V[a][b].length ≤ c := by omega
      rw [List.getD_eq_getElem?_getD, List.getElem?_eq_none hcz]
      rfl
    · have h2 : V[a].getD b [] = [] := by
        rw [List.getD_eq_getElem?_getD, List.getElem?_eq_none (by omega)]
        rfl
      rw [h2]
      rfl
  · have h1 : V.getD a [] = [] := by
      rw [List.getD_eq_getElem?_getD, List.getElem?_eq_none (by omega)]
      rfl
    rw [h1]
    rfl

theorem size_cuboid (V : Vol) (x y z : Nat) (h : cuboid V x y z) :
    size V = x * y * z := by
  obtain ⟨hx, hpl⟩ := h
  unfold size
  by_cases hx0 : x = 0
  · subst hx0
    have : V = [] := List.eq_nil_of_length_eq_zero (by omega)
    subst this
    simp
  · have haV : 0 < V.length := by omega
    have hplane := hpl V[0] (List.getElem_mem haV)
    have h1 : V.getD 0 [] = V[0] := by
      rw [List.getD_eq_getElem?_getD, List.getElem?_eq_getElem haV]
      rfl
    rw [hx, h1, hplane.1]
    by_cases hy0 : y = 0
    · subst hy0
      simp [hx0]
    · have hbP : 0 < V[0].length := by omega
      have hrow := hplane.2 V[0][0] (List.getElem_mem hbP)
      have h2 : V[0].getD 0 [] = V[0][0] := by
        rw [List.getD_eq_getElem?_getD, List.getElem?_eq_getElem hbP]
        rfl
      rw [h2, hrow]
      show (if (if x ≠ 0 then x * y else x) ≠ 0 then
          (if x ≠ 0 then x * y else x) * z
        else (if x ≠ 0 then x * y else x)) = x * y * z
      have e1 : (if x ≠ 0 then x * y else x) = x * y := if_pos hx0
      rw [e1, if_pos (Nat.mul_ne_zero hx0 hy0)]

theorem getD_replicate_any (n k : Nat) (x d : α) :
    (List.replicate n x).getD k d = if k < n then x else d := by
  rw [List.getD_eq_getElem?_getD, List.getElem?_replicate]
  split <;> simp

/-- The all-false volume `decode` starts from. -/
theorem getCell_cut_nil (n a b c : Nat) :
    getCell (cut_volume [] n n n) a b c = false := by
  rw [getCell_cut_volume]
  split
  · rfl
  · rfl

theorem eq_dims_of_size_ge (x y z N : Nat) (hx : x ≤ N) (hy : y ≤ N)
    (hz : z ≤ N) (h : N * N * N ≤ x * y * z) : x = N ∧ y = N ∧ z = N := by
  rcases Nat.eq_zero_or_pos N with h0 | hN
  · omega
  refine ⟨?_, ?_, ?_⟩
  · by_contra hc
    have h1 : x * y * z ≤ (N - 1) * N * N :=
      Nat.mul_le_mul (Nat.mul_le_mul (by omega) hy) hz
    have h2 : (N - 1) * N * N < N * N * N := by
      obtain ⟨M, rfl⟩ : ∃ M, N = M + 1 := ⟨N - 1, by omega⟩
      simp only [Nat.add_sub_cancel]
      nlinarith
    omega
  · by_contra hc
    have h1 : x * y * z ≤ N * (N - 1) * N :=
      Nat.mul_le_mul (Nat.mul_le_mul hx (by omega)) hz
    have h2 : N * (N - 1) * N < N * N * N := by
      obtain ⟨M, rfl⟩ : ∃ M, N = M + 1 := ⟨N - 1, by omega⟩
      simp only [Nat.add_sub_cancel]
      nlinarith
    omega
  · by_contra hc
    have h1 : x * y * z ≤ N * N * (N - 1) :=
      Nat.mul_le_mul (Nat.mul_le_mul hx hy) (by omega)
    have h2 : N * N * (N - 1) < N * N * N := by
      obtain ⟨M, rfl⟩ : ∃ M, N = M + 1 := ⟨N - 1, by omega⟩
      simp only [Nat.add_sub_cancel]
      nlinarith
    omega

/-! ## Pipeline bridge lemmas -/

/-- Inversion of a successful `save`. -/
theorem save_inv (V : Vol) (f : List Nat) (h : save V = .ok (some f)) :
    ∃ P bits, pad_to_cube V = .ok P ∧ encode P = .ok bits ∧
      f = stream_data_as_file_bytes bits V.length (V.getD 0 []).length
        ((V.getD 0 []).getD 0 []).length (decide (size V < size P)) := by
  unfold save at h
  split at h
  · exact absurd h (by simp)
  · obtain ⟨P, hP, h⟩ := (exceptBind_eq_ok _ _ _).mp h
    obtain ⟨bits, hbits, h⟩ := (exceptBind_eq_ok _ _ _).mp h
    refine ⟨P, bits, hP, hbits, ?_⟩
    have h2 := (Except.ok.injEq _ _).mp h
    exact ((Option.some.injEq _ _).mp h2).symm

/-- The container, regrouped for field extraction. -/
theorem stream_shape (bits : List Bool) (x y z : Nat) (p : Bool) :
    stream_data_as_file_bytes bits x y z p =
      SIGNATURE ++
        ([(if bits.length % 8 = 0 then 0 else 8 - bits.length % 8) <<< 5 |||
            (if p then 1 else 0) <<< 4] ++
          (le32 (x % 2 ^ 32) ++
            (le32 (if p then y % 2 ^ 32 else 0) ++
              (le32 (if p then z % 2 ^ 32 else 0) ++
                (le32 (((bits.length +
                    (if bits.length % 8 = 0 then 0 else 8 - bits.length % 8)) / 8) %
                    2 ^ 32) ++
                  packBytes (List.replicate
                    (if bits.length % 8 = 0 then 0 else 8 - bits.length % 8) false ++
                    bits)))))) := by
  simp [stream_data_as_file_bytes, List.append_assoc, le32]

/-- Reading every header field back out of a container byte list. -/
theorem file_fields (mf a b c d : Nat) (payload F : List Nat)
    (hF : F = SIGNATURE ++
      ([mf] ++ (le32 a ++ (le32 b ++ (le32 c ++ (le32 d ++ payload)))))) :
    F.take 5 = SIGNATURE ∧
    ((F.drop 5).take 17).getD 0 0 = mf ∧
    pack_chars (((F.drop 5).take 17).drop 1) = a % 2 ^ 32 ∧
    pack_chars (((F.drop 5).take 17).drop 5) = b % 2 ^ 32 ∧
    pack_chars (((F.drop 5).take 17).drop 9) = c % 2 ^ 32 ∧
    pack_chars (((F.drop 5).take 17).drop 13) = d % 2 ^ 32 ∧
    F.drop 22 = payload := by
  subst hF
  have hsig : SIGNATURE.length = 5 := rfl
  have hdrop5 : (SIGNATURE ++
      ([mf] ++ (le32 a ++ (le32 b ++ (le32 c ++ (le32 d ++ payload)))))).drop 5 =
      [mf] ++ (le32 a ++ (le32 b ++ (le32 c ++ (le32 d ++ payload)))) := by
    rw [show (5 : Nat) = SIGNATURE.length from rfl, List.drop_left]
  have hhead : [mf] ++ (le32 a ++ (le32 b ++ (le32 c ++ (le32 d ++ payload)))) =
      ([mf] ++ le32 a ++ le32 b ++ le32 c ++ le32 d) ++ payload := by
    simp [List.append_assoc]
  have htake17 : (([mf] ++ le32 a ++ le32 b ++ le32 c ++ le32 d) ++ payload).take 17 =
      [mf] ++ le32 a ++ le32 b ++ le32 c ++ le32 d := by
    rw [show (17 : Nat) =
      ([mf] ++ le32 a ++ le32 b ++ le32 c ++ le32 d).length by simp [le32],
      List.take_left]
  have hmeta : ((SIGNATURE ++
      ([mf] ++ (le32 a ++ (le32 b ++ (le32 c ++ (le32 d ++ payload)))))).drop
        5).take 17 = [mf] ++ le32 a ++ le32 b ++ le32 c ++ le32 d := by
    rw [hdrop5, hhead, htake17]
  refine ⟨?_, ?_, ?_, ?_, ?_, ?_, ?_⟩
  · rw [show (5 : Nat) = SIGNATURE.length from rfl, List.take_left]
  · rw [hmeta]
    rfl
  · rw [hmeta]
    have : ([mf] ++ le32 a ++ le32 b ++ le32 c ++ le32 d).drop 1 =
        le32 a ++ (le32 b ++ (le32 c ++ le32 d)) := by
      simp [List.append_assoc]
    rw [this, pack_chars_le32]
  · rw [hmeta]
    have : ([mf] ++ le32 a ++ le32 b ++ le32 c ++ le32 d).drop 5 =
        le32 b ++ (le32 c ++ le32 d) := by
      simp [le32, List.append_assoc]
    rw [this, pack_chars_le32]
  · rw [hmeta]
    have : ([mf] ++ le32 a ++ le32 b ++ le32 c ++ le32 d).drop 9 =
        le32 c ++ le32 d := by
      simp [le32, List.append_assoc]
    rw [this, pack_chars_le32]
  · rw [hmeta]
    have : ([mf] ++ le32 a ++ le32 b ++ le32 c ++ le32 d).drop 13 = le32 d := by
      simp [le32, List.append_assoc]
    rw [this, pack_chars_le32_nil]
  · have : SIGNATURE ++
        ([mf] ++ (le32 a ++ (le32 b ++ (le32 c ++ (le32 d ++ payload))))) =
        (SIGNATURE ++ [mf] ++ le32 a ++ le32 b ++ le32 c ++ le32 d) ++ payload := by
      simp [List.append_assoc]
    rw [this, show (22 : Nat) =
      (SIGNATURE ++ [mf] ++ le32 a ++ le32 b ++ le32 c ++ le32 d).length by
        simp [le32, SIGNATURE],
      List.drop_left]

/-- Encode succeeds on a power-of-two cuboid within the depth budget, and
decoding the result writes exactly the encoded volume. -/
theorem encode_decode_cuboid (data : Vol) (N j : Nat) (hcub : cuboid data N N N)
    (hN : N = 2 ^ j) (hj : j ≤ RECURSION_MAX_DEPTH) :
    ∃ bits, encode data = .ok bits ∧
      ∀ out, cuboid out N N N →
        ∃ out', decodeGo bits out 0 0 N 0 N 0 N (RECURSION_MAX_DEPTH + 1) =
            .ok (out', bits.length) ∧
          cuboid out' N N N ∧
          ∀ a b c, getCell out' a b c =
            if 0 ≤ a ∧ a < N ∧ 0 ≤ b ∧ b < N ∧ 0 ≤ c ∧ c < N
            then getCell data a b c else getCell out a b c := by
  have hj21 : j < RECURSION_MAX_DEPTH + 1 := by omega
  obtain ⟨bits, hbits⟩ := encodeGo_ok data j (RECURSION_MAX_DEPTH + 1) 0 0 0 hj21
  have h0N : 0 + 2 ^ j = N := by omega
  have hbitsN := hbits
  rw [h0N] at hbitsN
  have hlen : data.length = N := hcub.1
  have henc : encode data = .ok bits := by
    rw [encode, encode_recursive, hlen]
    exact hbitsN
  refine ⟨bits, henc, ?_⟩
  intro out hout
  obtain ⟨out', hdec, hcub', hpt⟩ :=
    decodeGo_encodeGo data N j (RECURSION_MAX_DEPTH + 1) (RECURSION_MAX_DEPTH + 1)
      0 0 0 bits hj21 hj21 (by omega) (by omega) (by omega) hbits out [] [] hout
  rw [h0N] at hdec hpt
  have he : ([] : List Bool) ++ bits ++ [] = bits := by simp
  have hl : ([] : List Bool).length = 0 := rfl
  rw [he, hl, Nat.zero_add] at hdec
  exact ⟨out', hdec, hcub', hpt⟩

theorem padCube_eq_cut (V : Vol) (n : Nat) : padCube V n = cut_volume V n n n :=
  rfl

/-! ## Claim theorems -/

/-- C8: a volume of total size 0 makes `save` return normally (`.ok`),
without writing a file (`none`): the size check precedes the `ofstream`
construction, so the file at the path is neither created nor truncated. -/
theorem spec_C8_save_empty_noop (V : Vol) (h : size V = 0) :
    save V = .ok none := by
  rw [save, if_pos h]

theorem spec_C8_witness : size ([] : Vol) = 0 ∧ save ([] : Vol) = .ok none :=
  ⟨rfl, spec_C8_save_empty_noop [] rfl⟩

/-- C3 (code bug): on the 3-bit input `[0,1,0]` at resolution (1,1,1) the
root decode consumes only 2 bits, yet `decode` returns the volume normally —
the `assert(end_idx == encoding.size())` of conversion.cpp line 293 is a
debug-only check (gone under `NDEBUG`, a process abort rather than a
surfaced error otherwise), so no error reaches the caller. -/
theorem spec_C3_assert_not_surfaced :
    decode [false, true, false] 1 1 1 = .ok [[[true]]] ∧
      (2 : Nat) ≠ [false, true, false].length := by
  constructor
  · decide
  · decide

/-- C7 (amended): the depth check fires as soon as `depth` exceeds
`RECURSION_MAX_DEPTH`, for encode and decode alike, before any other work. -/
theorem spec_C7_depth_cap (data : Vol) (enc : List Bool) (out : Vol)
    (idx xs xe ys ye zs ze d : Nat) (hd : RECURSION_MAX_DEPTH < d) :
    encode_recursive data xs xe ys ye zs ze d = .error .RecursionLimitExceeded ∧
      decode_recursive enc out idx xs xe ys ye zs ze d =
        .error .RecursionLimitExceeded := by
  have h0 : RECURSION_MAX_DEPTH + 1 - d = 0 := by omega
  constructor
  · rw [encode_recursive, h0]
    rfl
  · rw [decode_recursive, h0]
    rfl

theorem spec_C7_witness :
    RECURSION_MAX_DEPTH < 21 ∧
      (encode_recursive [] 0 1 0 1 0 1 21 = .error .RecursionLimitExceeded ∧
        decode_recursive [] [] 0 0 1 0 1 0 1 21 =
          .error .RecursionLimitExceeded) :=
  ⟨by decide, spec_C7_depth_cap [] [] [] 0 0 1 0 1 0 1 21 (by decide)⟩

/-- The all-`false` cube with side `2^21` — its implied octree depth is
21 > 20. -/
def bigCube : Vol :=
  List.replicate (2 ^ 21) (List.replicate (2 ^ 21) (List.replicate (2 ^ 21) false))

theorem getCell_bigCube (a b c : Nat) : getCell bigCube a b c = false := by
  unfold getCell
  have h1 : bigCube.getD a [] = List.replicate (2 ^ 21) (List.replicate (2 ^ 21) false) ∨
      bigCube.getD a [] = [] := by
    rw [bigCube, getD_replicate_any]
    split
    · exact Or.inl rfl
    · exact Or.inr rfl
  rcases h1 with h1 | h1 <;> rw [h1]
  · have h2 : (List.replicate (2 ^ 21) (List.replicate (2 ^ 21) false)).getD b [] =
        List.replicate (2 ^ 21) false ∨
        (List.replicate (2 ^ 21) (List.replicate (2 ^ 21) false)).getD b [] = [] := by
      rw [getD_replicate_any]
      split
      · exact Or.inl rfl
      · exact Or.inr rfl
    rcases h2 with h2 | h2 <;> rw [h2]
    · rw [getD_replicate_any]
      split <;> rfl
    · rfl
  · rfl

/-- C7 counterexample: a volume whose implied octree depth is 21 (> 20), yet
whose encode succeeds with a 2-bit leaf — homogeneous volumes never reach the
depth cap, so "fails with RecursionLimitExceeded" is false as a universal
statement about such resolutions. -/
theorem spec_C7_counterexample :
    pow2_roof (2 ^ 21) = 2 ^ 21 ∧
      encode bigCube = .ok [false, false] ∧
      (Except.ok [false, false] : Except Err (List Bool)) ≠
        .error .RecursionLimitExceeded := by
  refine ⟨pow2_roof_pow 21 (by norm_num), ?_, by simp⟩
  have hlen : bigCube.length = 2 ^ 21 := by
    show (List.replicate (2 ^ 21)
      (List.replicate (2 ^ 21) (List.replicate (2 ^ 21) false))).length = 2 ^ 21
    rw [List.length_replicate]
  rw [encode, encode_recursive, hlen]
  show encodeGo bigCube 0 (2 ^ 21) 0 (2 ^ 21) 0 (2 ^ 21) (20 + 1) =
    .ok [false, false]
  rw [encodeGo, if_neg (by norm_num),
    if_pos (hom_of_const bigCube _ _ _ _ _ _ false
      (fun a b c _ _ _ _ _ _ => getCell_bigCube a b c)),
    getCell_bigCube]

/-- C5 counterexample: 21 branch tokens form a bit sequence far shorter than
the octree structure it begins to describe, but decode fails with
`RecursionLimitExceeded`, not `OutOfRange`. -/
theorem spec_C5_counterexample :
    decode (List.replicate 21 true) 1 1 1 = .error .RecursionLimitExceeded := by
  decide

/-- C9 counterexample: all axes of resolution (1,1,1) respect the maximum
resolution, yet decode of a malformed 21-branch encoding still raises
`RecursionLimitExceeded` — the decoder's depth is driven by the encoding's
nesting, not by the resolution. -/
theorem spec_C9_counterexample :
    (1 ≤ MAX_RESOLUTION) ∧
      decode (List.replicate 21 true) 1 1 1 = .error .RecursionLimitExceeded := by
  constructor
  · decide
  · decide

/-- C6 counterexample: `pow2_roof (2^63 + 1)` overflows the 64-bit `val + 1`
and returns 0, not the smallest power of two ≥ its argument. -/
theorem spec_C6_counterexample :
    pow2_roof (2 ^ 63 + 1) = 0 := by
  rw [pow2_roof_not_pow (2 ^ 63 + 1) 63 (by norm_num) (by norm_num)
    (by norm_num) (by norm_num)]
  norm_num

/-- C6 (amended): on `1 ≤ n ≤ 2^63`, `pow2_roof n` is the smallest power of
two ≥ n, and returns n itself whenever n is already a power of two; above
`2^63` the result wraps modulo `2^64`. -/
theorem spec_C6_pow2_roof (n : Nat) (h1 : 1 ≤ n) (h2 : n ≤ 2 ^ 63) :
    (∃ k, pow2_roof n = 2 ^ k) ∧ n ≤ pow2_roof n ∧
      (∀ m k, m = 2 ^ k → n ≤ m → pow2_roof n ≤ m) ∧
      (∀ k, n = 2 ^ k → pow2_roof n = n) := by
  have hspec := pow2_roof_spec n h1 h2
  refine ⟨⟨Nat.clog 2 n, hspec⟩, ?_, ?_, ?_⟩
  · rw [hspec]
    exact Nat.le_pow_clog (by norm_num) n
  · intro m k hm hnm
    subst hm
    rw [hspec]
    exact Nat.pow_le_pow_right (by norm_num)
      ((Nat.le_pow_iff_clog_le (by norm_num)).mp hnm)
  · intro k hk
    subst hk
    apply pow2_roof_pow
    by_contra hc
    have : 2 ^ 64 ≤ 2 ^ k := Nat.pow_le_pow_right (by norm_num) (by omega)
    have h64 : (2 : Nat) ^ 63 < 2 ^ 64 := by norm_num
    omega

theorem spec_C6_witness :
    1 ≤ 5 ∧ 5 ≤ 2 ^ 63 ∧
      ((∃ k, pow2_roof 5 = 2 ^ k) ∧ 5 ≤ pow2_roof 5 ∧
        (∀ m k, m = 2 ^ k → 5 ≤ m → pow2_roof 5 ≤ m) ∧
        (∀ k, (5 : Nat) = 2 ^ k → pow2_roof 5 = 5)) :=
  ⟨by norm_num, by norm_num, spec_C6_pow2_roof 5 (by norm_num) (by norm_num)⟩

/-- C4 counterexample: the all-`true` volume of resolution (1,1,2) is fully
homogeneous, but padding to the 2×2×2 cube adds `false` cells, so the saved
encoding is a 17-bit branch — not the 2-bit leaf the claim promises. -/
theorem spec_C4_counterexample :
    (pad_to_cube [[[true, true]]] >>= encode) =
      .ok [true, false, true, false, true, false, false, false, false, false,
        false, false, false, false, false, false, false] ∧
      (pad_to_cube [[[true, true]]] >>= encode) ≠ .ok [false, true] ∧
      (pad_to_cube [[[true, true]]] >>= encode) ≠ .ok [false, false] := by
  refine ⟨by decide, by decide, by decide⟩

/-- The full conversion pipeline: padding a nonempty cuboid within the
resolution bound succeeds, encoding the padded cube succeeds, and decoding
the encoding at the original resolution returns the original volume. -/
theorem pad_encode_decode (V : Vol) (x y z : Nat) (hcub : cuboid V x y z)
    (hx : 1 ≤ x) (hy : 1 ≤ y) (hz : 1 ≤ z) (hxM : x ≤ MAX_RESOLUTION)
    (hyM : y ≤ MAX_RESOLUTION) (hzM : z ≤ MAX_RESOLUTION) :
    ∃ J bits, J ≤ 17 ∧ max_res_pow2_roof x y z = 2 ^ J ∧
      pad_to_cube V = .ok (padCube V (2 ^ J)) ∧
      cuboid (padCube V (2 ^ J)) (2 ^ J) (2 ^ J) (2 ^ J) ∧
      encode (padCube V (2 ^ J)) = .ok bits ∧
      decode bits x y z = .ok V := by
  have hM1 : 1 ≤ max (max x y) z :=
    le_trans hx (le_trans (Nat.le_max_left x y) (Nat.le_max_left _ z))
  have hMM : max (max x y) z ≤ MAX_RESOLUTION :=
    Nat.max_le.mpr ⟨Nat.max_le.mpr ⟨hxM, hyM⟩, hzM⟩
  obtain ⟨J, hJ17, hNval, hMN⟩ := max_res_pow2_roof_spec x y z hM1 hMM
  have hxN : x ≤ 2 ^ J :=
    le_trans (le_trans (Nat.le_max_left x y) (Nat.le_max_left _ z)) hMN
  have hyN : y ≤ 2 ^ J :=
    le_trans (le_trans (Nat.le_max_right x y) (Nat.le_max_left _ z)) hMN
  have hzN : z ≤ 2 ^ J := le_trans (Nat.le_max_right _ z) hMN
  have hVlen : V.length = x := hcub.1
  have hplane : (V.getD 0 []).length = y :=
    cuboid_getD_plane V x y z 0 hcub (by omega)
  have hrow : ((V.getD 0 []).getD 0 []).length = z :=
    cuboid_getD_row V x y z 0 0 hcub (by omega) (by omega)
  have hsznz : ¬ size V = 0 := by
    rw [size_cuboid V x y z hcub]
    exact Nat.mul_ne_zero (Nat.mul_ne_zero (by omega) (by omega)) (by omega)
  have hpad : pad_to_cube V = .ok (padCube V (2 ^ J)) := by
    rw [pad_to_cube, if_neg hsznz, hVlen, hplane, hrow, hNval]
  have hPcub : cuboid (padCube V (2 ^ J)) (2 ^ J) (2 ^ J) (2 ^ J) := by
    rw [padCube_eq_cut]
    exact cuboid_cut_volume V _ _ _
  obtain ⟨bits, henc, hdec⟩ :=
    encode_decode_cuboid (padCube V (2 ^ J)) (2 ^ J) J hPcub rfl
      (le_trans hJ17 (by decide))
  obtain ⟨out', hstep, hout'cub, hpt⟩ :=
    hdec (cut_volume [] (2 ^ J) (2 ^ J) (2 ^ J)) (cuboid_cut_volume [] _ _ _)
  refine ⟨J, bits, hJ17, hNval, hpad, hPcub, henc, ?_⟩
  have hcutV : cut_volume out' x y z = V := by
    apply cuboid_ext _ _ x y z (cuboid_cut_volume out' x y z) hcub
    intro a b c ha hb hc
    rw [getCell_cut_volume, if_pos ⟨ha, hb, hc⟩, hpt, if_pos (by omega),
      padCube_eq_cut, getCell_cut_volume, if_pos (by omega)]
  simp only [decode, decode_recursive, hNval, Nat.sub_zero, hstep,
    exceptBind_ok, hcutV]

/-- C9 (amended): for every nonempty cuboid volume whose axes all respect
`MAX_RESOLUTION`, the save-side pipeline (pad to cube, then encode) succeeds,
and decode of its output at the original resolution also succeeds — in
particular neither side ever raises `RecursionLimitExceeded` under the
resolution bound. -/
theorem spec_C9_no_depth_error (V : Vol) (x y z : Nat) (hcub : cuboid V x y z)
    (hx : 1 ≤ x) (hy : 1 ≤ y) (hz : 1 ≤ z) (hxM : x ≤ MAX_RESOLUTION)
    (hyM : y ≤ MAX_RESOLUTION) (hzM : z ≤ MAX_RESOLUTION) :
    ∃ P bits, pad_to_cube V = .ok P ∧ encode P = .ok bits ∧
      decode bits x y z = .ok V := by
  obtain ⟨J, bits, _, _, hpad, _, henc, hdec⟩ :=
    pad_encode_decode V x y z hcub hx hy hz hxM hyM hzM
  exact ⟨padCube V (2 ^ J), bits, hpad, henc, hdec⟩

theorem spec_C9_witness :
    cuboid [[[true, false]]] 1 1 2 ∧
      (∃ P bits, pad_to_cube [[[true, false]]] = .ok P ∧ encode P = .ok bits ∧
        decode bits 1 1 2 = .ok [[[true, false]]]) :=
  ⟨by unfold cuboid; decide,
    spec_C9_no_depth_error [[[true, false]]] 1 1 2 (by unfold cuboid; decide)
      (by decide) (by decide) (by decide) (by decide) (by decide) (by decide)⟩

/-- A fully homogeneous volume runs the pad-encode pipeline to a single
2-bit leaf, provided padding preserves homogeneity. -/
theorem pipeline_homog (V : Vol) (x y z J : Nat) (v : Bool)
    (hcub : cuboid V x y z) (hx : 1 ≤ x) (hy : 1 ≤ y) (hz : 1 ≤ z)
    (hNval : max_res_pow2_roof x y z = 2 ^ J)
    (hval : ∀ a b c, a < x → b < y → c < z → getCell V a b c = v)
    (hok : v = false ∨ (x = 2 ^ J ∧ y = x ∧ z = x)) :
    (pad_to_cube V >>= encode) = .ok [false, v] := by
  have hpos : 1 ≤ 2 ^ J := Nat.one_le_two_pow
  have hVlen : V.length = x := hcub.1
  have hplane : (V.getD 0 []).length = y :=
    cuboid_getD_plane V x y z 0 hcub (by omega)
  have hrow : ((V.getD 0 []).getD 0 []).length = z :=
    cuboid_getD_row V x y z 0 0 hcub (by omega) (by omega)
  have hsznz : ¬ size V = 0 := by
    rw [size_cuboid V x y z hcub]
    exact Nat.mul_ne_zero (Nat.mul_ne_zero (by omega) (by omega)) (by omega)
  have hpad : pad_to_cube V = .ok (padCube V (2 ^ J)) := by
    rw [pad_to_cube, if_neg hsznz, hVlen, hplane, hrow, hNval]
  have hPcub : cuboid (padCube V (2 ^ J)) (2 ^ J) (2 ^ J) (2 ^ J) := by
    rw [padCube_eq_cut]
    exact cuboid_cut_volume V _ _ _
  have hPv : ∀ a b c, a < 2 ^ J → b < 2 ^ J → c < 2 ^ J →
      getCell (padCube V (2 ^ J)) a b c = v := by
    intro a b c ha hb hc
    rw [padCube_eq_cut, getCell_cut_volume, if_pos ⟨ha, hb, hc⟩]
    rcases hok with hv | ⟨hxJ, hyx, hzx⟩
    · by_cases hin : a < x ∧ b < y ∧ c < z
      · exact hval a b c hin.1 hin.2.1 hin.2.2
      · rw [getCell_out_of_range V x y z a b c hcub (by omega), hv]
    · exact hval a b c (by omega) (by omega) (by omega)
  have hlenP : (padCube V (2 ^ J)).length = 2 ^ J := hPcub.1
  rw [hpad, exceptBind_ok, encode, encode_recursive, hlenP]
  show encodeGo (padCube V (2 ^ J)) 0 (2 ^ J) 0 (2 ^ J) 0 (2 ^ J) (20 + 1) =
    .ok [false, v]
  have hsz : ¬ ((2 ^ J - 0) * (2 ^ J - 0) * (2 ^ J - 0) = 0) := by
    simp only [Nat.sub_zero, Nat.mul_eq_zero]
    push_neg
    omega
  have hhom : is_subvolume_homogeneous (padCube V (2 ^ J))
      0 (2 ^ J) 0 (2 ^ J) 0 (2 ^ J) = true :=
    hom_of_const _ _ _ _ _ _ _ v
      (fun a b c _ ha _ hb _ hc => hPv a b c ha hb hc)
  rw [encodeGo, if_neg hsz, if_pos hhom, hPv 0 0 0 (by omega) (by omega) (by omega)]

/-- C4 (amended): for a nonempty volume all of whose cells hold the value
`v`, with all axes within `MAX_RESOLUTION`, the save pipeline (pad to cube,
then encode) produces exactly the 2 bits `[leaf, v]` provided padding does
not break homogeneity: either `v = false` (padding cells are `false`), or
the volume is already a power-of-two cube.  (Without that proviso the claim
fails: see the counterexample.) -/
theorem spec_C4_homogeneous_two_bits (V : Vol) (x y z : Nat) (v : Bool)
    (hcub : cuboid V x y z) (hx : 1 ≤ x) (hy : 1 ≤ y) (hz : 1 ≤ z)
    (hxM : x ≤ MAX_RESOLUTION) (hyM : y ≤ MAX_RESOLUTION)
    (hzM : z ≤ MAX_RESOLUTION)
    (hval : ∀ a b c, a < x → b < y → c < z → getCell V a b c = v)
    (hok : v = false ∨ (y = x ∧ z = x ∧ ∃ j, x = 2 ^ j)) :
    (pad_to_cube V >>= encode) = .ok [false, v] := by
  obtain ⟨J, hJ17, hNval, hMN⟩ := max_res_pow2_roof_spec x y z
    (le_trans hx (le_trans (Nat.le_max_left x y) (Nat.le_max_left _ z)))
    (Nat.max_le.mpr ⟨Nat.max_le.mpr ⟨hxM, hyM⟩, hzM⟩)
  apply pipeline_homog V x y z J v hcub hx hy hz hNval hval
  rcases hok with hv | ⟨hyx, hzx, j, hxj⟩
  · exact Or.inl hv
  · refine Or.inr ⟨?_, hyx, hzx⟩
    have hj16 : j ≤ 63 := by
      by_contra hj
      have h1 : 2 ^ 64 ≤ 2 ^ j := Nat.pow_le_pow_right (by norm_num) (by omega)
      have h2 : x ≤ 100000 := by
        have : MAX_RESOLUTION = 100000 := rfl
        omega
      have h3 : (100000 : Nat) < 2 ^ 64 := by norm_num
      omega
    have hmax : max (max x y) z = x := by
      rw [hyx, hzx]
      simp
    have hxN : max_res_pow2_roof x y z = x := by
      rw [max_res_pow2_roof, hmax, hxj]
      exact pow2_roof_pow j hj16
    omega

theorem spec_C4_witness :
    (∀ a b c, a < 1 → b < 1 → c < 1 → getCell [[[false]]] a b c = false) ∧
      (pad_to_cube [[[false]]] >>= encode) = .ok [false, false] := by
  have hval : ∀ a b c, a < 1 → b < 1 → c < 1 →
      getCell [[[false]]] a b c = false := by
    intro a b c ha hb hc
    interval_cases a
    interval_cases b
    interval_cases c
    decide
  exact ⟨hval, spec_C4_homogeneous_two_bits [[[false]]] 1 1 1 false
    (by unfold cuboid; decide) (by decide) (by decide) (by decide) (by decide)
    (by decide) (by decide) hval (Or.inl rfl)⟩

/-- C5 (amended): decoding a strict prefix of a genuine pipeline encoding
fails with `OutOfRange` — every token read and every leaf-value read is
guarded by a cursor bounds check, so a truncated encoding is detected rather
than read past.  (The unqualified claim is refuted by the counterexample: a
malformed deep-nesting bit sequence can instead hit the recursion cap.) -/
theorem spec_C5_truncated (V : Vol) (x y z : Nat) (bits Q rest : List Bool)
    (hcub : cuboid V x y z) (hx : 1 ≤ x) (hy : 1 ≤ y) (hz : 1 ≤ z)
    (hxM : x ≤ MAX_RESOLUTION) (hyM : y ≤ MAX_RESOLUTION)
    (hzM : z ≤ MAX_RESOLUTION)
    (henc : (pad_to_cube V >>= encode) = .ok bits)
    (hrest : rest ≠ []) (hQ : Q ++ rest = bits) :
    decode Q x y z = .error .OutOfRange := by
  obtain ⟨J, bits0, hJ17, hNval, hpad, hPcub, _, _⟩ :=
    pad_encode_decode V x y z hcub hx hy hz hxM hyM hzM
  rw [hpad, exceptBind_ok] at henc
  have hlenP : (padCube V (2 ^ J)).length = 2 ^ J := hPcub.1
  rw [encode, encode_recursive, hlenP] at henc
  have h21 : RECURSION_MAX_DEPTH + 1 - 0 = RECURSION_MAX_DEPTH + 1 := rfl
  rw [h21] at henc
  have h0N : 0 + 2 ^ J = 2 ^ J := by omega
  nth_rewrite 2 3 4 [← h0N] at henc
  have hD := decodeGo_truncated (padCube V (2 ^ J)) (2 ^ J) J
    (RECURSION_MAX_DEPTH + 1) (RECURSION_MAX_DEPTH + 1) 0 0 0 bits
    (by have : RECURSION_MAX_DEPTH = 20 := rfl; omega)
    (by have : RECURSION_MAX_DEPTH = 20 := rfl; omega)
    (by omega) (by omega) (by omega) henc
    (cut_volume [] (2 ^ J) (2 ^ J) (2 ^ J)) [] Q rest
    (cuboid_cut_volume [] _ _ _) hrest hQ
  rw [List.nil_append, h0N] at hD
  simp only [decode, decode_recursive, hNval, Nat.sub_zero, List.length_nil]
    at hD ⊢
  rw [hD, exceptBind_error]

theorem spec_C5_witness :
    cuboid [[[true, false], [false, false]], [[false, false], [false, false]]]
        2 2 2 ∧
      (pad_to_cube [[[true, false], [false, false]],
          [[false, false], [false, false]]] >>= encode) =
        .ok ([true, false, true] ++ List.replicate 14 false) ∧
      List.replicate 14 false ≠ ([] : List Bool) ∧
      decode [true, false, true] 2 2 2 = .error .OutOfRange :=
  ⟨by unfold cuboid; decide, by decide, by decide,
    spec_C5_truncated
      [[[true, false], [false, false]], [[false, false], [false, false]]]
      2 2 2 ([true, false, true] ++ List.replicate 14 false)
      [true, false, true] (List.replicate 14 false)
      (by unfold cuboid; decide) (by decide) (by decide) (by decide)
      (by decide) (by decide) (by decide) (by decide) (by decide) rfl⟩

/-- Forward evaluation of a successful `save`. -/
theorem save_eq (V P : Vol) (bits : List Bool) (hsz : ¬ size V = 0)
    (hpad : pad_to_cube V = .ok P) (henc : encode P = .ok bits) :
    save V = .ok (some (stream_data_as_file_bytes bits V.length
      (V.getD 0 []).length ((V.getD 0 []).getD 0 []).length
      (decide (size V < size P)))) := by
  rw [save, if_neg hsz, hpad]
  rw [exceptBind_ok]
  rw [henc]
  rw [exceptBind_ok]

/-- C1 counterexample: the all-`false` volume of resolution (100001, 1, 1)
has every dimension at least 1, and `save` happily writes a container for it
(there is no resolution check on the save path) — but `load` rejects that
very container with `FormatError`, because its x-resolution field exceeds
the maximum of 100000.  The round-trip property fails without a resolution
bound. -/
theorem spec_C1_counterexample :
    save (List.replicate 100001 [[false]]) =
      .ok (some (stream_data_as_file_bytes [false, false] 100001 1 1 true)) ∧
      load (stream_data_as_file_bytes [false, false] 100001 1 1 true) =
        .error .FormatError := by
  have hcub : cuboid (List.replicate 100001 [[false]]) 100001 1 1 := by
    constructor
    · rw [List.length_replicate]
    · intro p hp
      have hp' := List.eq_of_mem_replicate hp
      subst hp'
      refine ⟨rfl, ?_⟩
      intro r hr
      simp only [List.mem_singleton] at hr
      subst hr
      rfl
  have hval : ∀ a b c, a < 100001 → b < 1 → c < 1 →
      getCell (List.replicate 100001 [[false]]) a b c = false := by
    intro a b c ha hb hc
    unfold getCell
    rw [getD_replicate_any, if_pos ha]
    interval_cases b
    interval_cases c
    decide
  have hNval : max_res_pow2_roof 100001 1 1 = 2 ^ 17 := by
    rw [max_res_pow2_roof]
    show pow2_roof 100001 = 2 ^ 17
    rw [pow2_roof_not_pow 100001 16 (by norm_num) (by norm_num) (by norm_num)
      (by norm_num)]
    norm_num
  have hsznz : ¬ size (List.replicate 100001 [[false]]) = 0 := by
    rw [size_cuboid _ 100001 1 1 hcub]
    norm_num
  have hVlen : (List.replicate 100001 ([[false]] : List (List Bool))).length =
      100001 := hcub.1
  have hplane :
      ((List.replicate 100001 ([[false]] : List (List Bool))).getD 0 []).length =
      1 := cuboid_getD_plane _ 100001 1 1 0 hcub (by norm_num)
  have hrow :
      (((List.replicate 100001 ([[false]] : List (List Bool))).getD 0 []).getD
        0 []).length = 1 := cuboid_getD_row _ 100001 1 1 0 0 hcub (by norm_num)
      (by norm_num)
  have hpad : pad_to_cube (List.replicate 100001 [[false]]) =
      .ok (padCube (List.replicate 100001 [[false]]) (2 ^ 17)) := by
    rw [pad_to_cube, if_neg hsznz, hVlen, hplane, hrow, hNval]
  have henc : encode (padCube (List.replicate 100001 [[false]]) (2 ^ 17)) =
      .ok [false, false] := by
    have h := pipeline_homog (List.replicate 100001 [[false]]) 100001 1 1 17
      false hcub (by norm_num) (by norm_num) (by norm_num) hNval hval
      (Or.inl rfl)
    rw [hpad, exceptBind_ok] at h
    exact h
  refine ⟨?_, by decide⟩
  rw [save_eq _ _ _ hsznz hpad henc, hVlen, hplane, hrow,
    size_cuboid _ 100001 1 1 hcub, padCube_eq_cut,
    size_cuboid _ (2 ^ 17) (2 ^ 17) (2 ^ 17) (cuboid_cut_volume _ _ _ _)]
  have hd : (decide (100001 * 1 * 1 < 2 ^ 17 * 2 ^ 17 * 2 ^ 17)) = true := by
    decide
  rw [hd]

/-- Loading a container written by `stream_data_as_file_bytes` reduces to
decoding the payload at the stored resolution, when the resolution respects
the maximum, the payload-length field does not truncate, and an unpadded
container really is cubic. -/
theorem load_stream (bits : List Bool) (x y z : Nat) (p : Bool)
    (hx : 1 ≤ x) (hy : 1 ≤ y) (hz : 1 ≤ z) (hxM : x ≤ MAX_RESOLUTION)
    (hyM : y ≤ MAX_RESOLUTION) (hzM : z ≤ MAX_RESOLUTION)
    (hlen : bits.length < 2 ^ 32) (hyz : p = false → y = x ∧ z = x) :
    load (stream_data_as_file_bytes bits x y z p) = decode bits x y z := by
  obtain ⟨h1, h2, h3, h4, h5, h6, h7⟩ :=
    file_fields _ _ _ _ _ _ _ (stream_shape bits x y z p)
  set pad := if bits.length % 8 = 0 then 0 else 8 - bits.length % 8 with hpaddef
  have hM : MAX_RESOLUTION = 100000 := rfl
  have hpad7 : pad ≤ 7 := (pad_spec bits.length).1
  have hpad8 : (bits.length + pad) % 8 = 0 := (pad_spec bits.length).2
  have hflags := flags_decode pad (if p then 1 else 0) hpad7
    (by cases p <;> simp)
  have hxmod : x % 2 ^ 32 % 2 ^ 32 = x := by omega
  have hyres : (if (if p then (1 : Nat) else 0) = 1
      then (if p then y % 2 ^ 32 else 0) % 2 ^ 32 else x) = y := by
    cases p
    · rw [if_neg (by decide)]
      exact ((hyz rfl).1).symm
    · rw [if_pos (by decide), if_pos (by decide)]
      omega
  have hzres : (if (if p then (1 : Nat) else 0) = 1
      then (if p then z % 2 ^ 32 else 0) % 2 ^ 32 else x) = z := by
    cases p
    · rw [if_neg (by decide)]
      exact ((hyz rfl).2).symm
    · rw [if_pos (by decide), if_pos (by decide)]
      omega
  have hguard : ¬(x > MAX_RESOLUTION ∨ y > MAX_RESOLUTION ∨
      z > MAX_RESOLUTION) := by omega
  have hdl : ((bits.length + pad) / 8) % 2 ^ 32 % 2 ^ 32 =
      (bits.length + pad) / 8 := by omega
  have hLlen : (List.replicate pad false ++ bits).length % 8 = 0 := by
    rw [List.length_append, List.length_replicate]
    omega
  have hplen : (packBytes (List.replicate pad false ++ bits)).length =
      (bits.length + pad) / 8 := by
    rw [packBytes_length (List.replicate pad false ++ bits).length _ le_rfl
      hLlen, List.length_append, List.length_replicate, Nat.add_comm]
  have hunpack : ((packBytes (List.replicate pad false ++ bits)).map
      bitsOfByte).flatten = List.replicate pad false ++ bits :=
    unpack_packBytes (List.replicate pad false ++ bits).length _ le_rfl hLlen
  have htake : (packBytes (List.replicate pad false ++ bits)).take
      ((bits.length + pad) / 8) = packBytes (List.replicate pad false ++ bits) := by
    rw [← hplen]
    exact List.take_length _
  simp only [load]
  rw [h1, if_neg (fun hc => hc rfl), h2, hflags.1, hflags.2, h3, hxmod,
    h4, h5, h6, hyres, hzres, if_neg hguard, hdl, h7, htake, hunpack,
    List.drop_left' (by rw [List.length_replicate])]

/-- C1 (amended): the save/load round trip holds for every nonempty
rectangular-cuboid volume whose axes are all within `MAX_RESOLUTION` and
whose encoding is short enough that the 32-bit payload-length header field
does not truncate: `save` writes a container, and `load` of that container
returns exactly the original volume.  (Without the resolution bound the
round trip fails — see the counterexample — and the save path itself never
checks it.) -/
theorem spec_C1_roundtrip (V : Vol) (x y z : Nat) (bits : List Bool)
    (hcub : cuboid V x y z) (hx : 1 ≤ x) (hy : 1 ≤ y) (hz : 1 ≤ z)
    (hxM : x ≤ MAX_RESOLUTION) (hyM : y ≤ MAX_RESOLUTION)
    (hzM : z ≤ MAX_RESOLUTION)
    (henc : (pad_to_cube V >>= encode) = .ok bits)
    (hsmall : bits.length < 2 ^ 32) :
    ∃ f, save V = .ok (some f) ∧ load f = .ok V := by
  obtain ⟨J, bits0, hJ17, hNval, hpad, hPcub, henc0, hdec0⟩ :=
    pad_encode_decode V x y z hcub hx hy hz hxM hyM hzM
  rw [hpad, exceptBind_ok] at henc
  have hbb : bits0 = bits := by
    rw [henc] at henc0
    exact ((Except.ok.injEq _ _).mp henc0).symm
  rw [hbb] at hdec0
  have hVlen : V.length = x := hcub.1
  have hplane : (V.getD 0 []).length = y :=
    cuboid_getD_plane V x y z 0 hcub (by omega)
  have hrow : ((V.getD 0 []).getD 0 []).length = z :=
    cuboid_getD_row V x y z 0 0 hcub (by omega) (by omega)
  have hsznz : ¬ size V = 0 := by
    rw [size_cuboid V x y z hcub]
    exact Nat.mul_ne_zero (Nat.mul_ne_zero (by omega) (by omega)) (by omega)
  have hsave : save V = .ok (some (stream_data_as_file_bytes bits x y z
      (decide (size V < size (padCube V (2 ^ J)))))) := by
    rw [save_eq _ _ _ hsznz hpad henc, hVlen, hplane, hrow]
  have hMle : max (max x y) z ≤ 2 ^ J := by
    rw [← hNval, max_res_pow2_roof]
    exact pow2_roof_ge _ (by omega) (by have : MAX_RESOLUTION = 100000 := rfl; omega)
  have hyz : decide (size V < size (padCube V (2 ^ J))) = false →
      y = x ∧ z = x := by
    intro hdf
    have hnlt : ¬ size V < size (padCube V (2 ^ J)) := of_decide_eq_false hdf
    have hszV : size V = x * y * z := size_cuboid V x y z hcub
    have hszP : size (padCube V (2 ^ J)) = 2 ^ J * 2 ^ J * 2 ^ J := by
      rw [padCube_eq_cut]
      exact size_cuboid _ _ _ _ (cuboid_cut_volume _ _ _ _)
    rw [hszV, hszP] at hnlt
    obtain ⟨hxe, hye, hze⟩ := eq_dims_of_size_ge x y z (2 ^ J)
      (le_trans (le_trans (Nat.le_max_left x y) (Nat.le_max_left _ z)) hMle)
      (le_trans (le_trans (Nat.le_max_right x y) (Nat.le_max_left _ z)) hMle)
      (le_trans (Nat.le_max_right _ z) hMle) (by omega)
    exact ⟨hye.trans hxe.symm, hze.trans hxe.symm⟩
  refine ⟨_, hsave, ?_⟩
  rw [load_stream bits x y z _ hx hy hz hxM hyM hzM hsmall hyz]
  exact hdec0

theorem spec_C1_witness :
    cuboid [[[true]], [[false]]] 2 1 1 ∧
      (pad_to_cube [[[true]], [[false]]] >>= encode) =
        .ok ([true, false, true] ++ List.replicate 14 false) ∧
      ([true, false, true] ++ List.replicate 14 false).length < 2 ^ 32 ∧
      ∃ f, save [[[true]], [[false]]] = .ok (some f) ∧
        load f = .ok [[[true]], [[false]]] :=
  ⟨by unfold cuboid; decide, by decide, by decide,
    spec_C1_roundtrip [[[true]], [[false]]] 2 1 1
      ([true, false, true] ++ List.replicate 14 false)
      (by unfold cuboid; decide) (by decide) (by decide) (by decide)
      (by decide) (by decide) (by decide) (by decide) (by decide)⟩

/-- C2 counterexample: `save` of the 1×1×1 volume `[[[true]]]` writes a
container whose padded flag (bit 4 of byte 5) is clear, whose x-resolution
field (bytes 6–9) is 1, but whose y-resolution field (bytes 10–13) is 0 —
the writer stores zeros, not a copy of x, in the unpadded case. -/
theorem spec_C2_counterexample :
    save [[[true]]] = .ok (some [79, 84, 66, 86, 150, 192, 1, 0, 0, 0, 0, 0,
      0, 0, 0, 0, 0, 0, 1, 0, 0, 0, 1]) ∧
      (([79, 84, 66, 86, 150, 192, 1, 0, 0, 0, 0, 0, 0, 0, 0, 0, 0, 0, 1, 0,
        0, 0, 1].getD 5 0 >>> 4) &&& 1 = 0) ∧
      ([79, 84, 66, 86, 150, 192, 1, 0, 0, 0, 0, 0, 0, 0, 0, 0, 0, 0, 1, 0,
        0, 0, 1].drop 10).take 4 ≠
        ([79, 84, 66, 86, 150, 192, 1, 0, 0, 0, 0, 0, 0, 0, 0, 0, 0, 0, 1, 0,
          0, 0, 1].drop 6).take 4 := by
  refine ⟨by decide, by decide, by decide⟩

/-- C2 (amended): in every container written by `save`, when the
padded-to-cube flag (bit 4 of the flags byte) is clear, the y-resolution
field (bytes 10–13) and the z-resolution field (bytes 14–17) each hold the
value 0 — not a copy of the x-resolution field; the loader compensates by
substituting the x resolution for both. -/
theorem spec_C2_unpadded_fields (V : Vol) (f : List Nat)
    (h : save V = .ok (some f))
    (hflag : (f.getD 5 0 >>> 4) &&& 1 = 0) :
    (f.drop 10).take 4 = [0, 0, 0, 0] ∧ (f.drop 14).take 4 = [0, 0, 0, 0] := by
  obtain ⟨P, bits, hpad, henc, hf⟩ := save_inv V f h
  rw [stream_shape] at hf
  set pad := if bits.length % 8 = 0 then 0 else 8 - bits.length % 8 with hpaddef
  set p := decide (size V < size P) with hpdef
  have h5 : f.getD 5 0 = pad <<< 5 ||| (if p then 1 else 0) <<< 4 := by
    rw [hf, show (5 : Nat) = SIGNATURE.length + 0 from rfl, getD_append_at]
    rfl
  have hb1 : ((pad <<< 5 ||| (if p then 1 else 0) <<< 4) >>> 4) &&& 1 =
      (if p then 1 else 0) :=
    (flags_decode pad _ (pad_spec bits.length).1 (by cases p <;> simp)).2
  rw [h5, hb1] at hflag
  have hp : p = false := by
    cases hcp : p
    · rfl
    · rw [hcp] at hflag
      simp at hflag
  have hy0 : (if p then (V.getD 0 []).length % 2 ^ 32 else 0) = 0 := by
    rw [hp]
    rfl
  have hz0 : (if p then ((V.getD 0 []).getD 0 []).length % 2 ^ 32 else 0) =
      0 := by
    rw [hp]
    rfl
  rw [hy0, hz0] at hf
  obtain ⟨mfv, av, rest, hsh⟩ : ∃ mfv av rest,
      f = SIGNATURE ++ ([mfv] ++ (le32 av ++ (le32 0 ++ (le32 0 ++ rest)))) :=
    ⟨_, _, _, hf⟩
  constructor
  · have h10 : f = (SIGNATURE ++ ([mfv] ++ le32 av)) ++
        (le32 0 ++ (le32 0 ++ rest)) := by
      rw [hsh]
      simp [List.append_assoc]
    rw [h10, List.drop_left' (show (SIGNATURE ++ ([mfv] ++ le32 av)).length =
      10 from rfl), List.take_left' (show (le32 (0 : Nat)).length = 4 from rfl)]
    rfl
  · have h14 : f = (SIGNATURE ++ ([mfv] ++ (le32 av ++ le32 0))) ++
        (le32 0 ++ rest) := by
      rw [hsh]
      simp [List.append_assoc]
    rw [h14, List.drop_left' (show (SIGNATURE ++ ([mfv] ++ (le32 av ++
      le32 0))).length = 14 from rfl),
      List.take_left' (show (le32 (0 : Nat)).length = 4 from rfl)]
    rfl

theorem spec_C2_witness :
    save [[[true]]] = .ok (some [79, 84, 66, 86, 150, 192, 1, 0, 0, 0, 0, 0,
        0, 0, 0, 0, 0, 0, 1, 0, 0, 0, 1]) ∧
      (([79, 84, 66, 86, 150, 192, 1, 0, 0, 0, 0, 0, 0, 0, 0, 0, 0, 0, 1, 0,
        0, 0, 1].getD 5 0 >>> 4) &&& 1 = 0) ∧
      (([79, 84, 66, 86, 150, 192, 1, 0, 0, 0, 0, 0, 0, 0, 0, 0, 0, 0, 1, 0,
          0, 0, 1].drop 10).take 4 = [0, 0, 0, 0] ∧
        ([79, 84, 66, 86, 150, 192, 1, 0, 0, 0, 0, 0, 0, 0, 0, 0, 0, 0, 1, 0,
          0, 0, 1].drop 14).take 4 = [0, 0, 0, 0]) :=
  ⟨by decide, by decide,
    spec_C2_unpadded_fields [[[true]]] _ (by decide) (by decide)⟩

/-- Every successful `encodeGo` output is a 2-bit leaf or starts with a
branch token. -/
theorem encodeGo_shape (data : Vol) (xs xe ys ye zs ze fuel : Nat)
    (bits : List Bool) (h : encodeGo data xs xe ys ye zs ze fuel = .ok bits) :
    (∃ v, bits = [false, v]) ∨ ∃ t, bits = true :: t := by
  cases fuel with
  | zero => exact absurd h (by rw [encodeGo]; simp)
  | succ f =>
    rw [encodeGo] at h
    split at h
    · exact absurd h (by simp)
    · split at h
      · exact Or.inl ⟨_, ((Except.ok.injEq _ _).mp h).symm⟩
      · obtain ⟨c0, h0, h⟩ := (exceptBind_eq_ok _ _ _).mp h
        obtain ⟨c1, h1, h⟩ := (exceptBind_eq_ok _ _ _).mp h
        obtain ⟨c2, h2, h⟩ := (exceptBind_eq_ok _ _ _).mp h
        obtain ⟨c3, h3, h⟩ := (exceptBind_eq_ok _ _ _).mp h
        obtain ⟨c4, h4, h⟩ := (exceptBind_eq_ok _ _ _).mp h
        obtain ⟨c5, h5, h⟩ := (exceptBind_eq_ok _ _ _).mp h
        obtain ⟨c6, h6, h⟩ := (exceptBind_eq_ok _ _ _).mp h
        obtain ⟨c7, h7, h⟩ := (exceptBind_eq_ok _ _ _).mp h
        exact Or.inr ⟨_, ((Except.ok.injEq _ _).mp h).symm⟩

/-- A successful 2-bit leaf `[false, v]` means every cell of the region
holds `v`. -/
theorem encodeGo_leaf_cells (data : Vol) (xs xe ys ye zs ze fuel : Nat)
    (v : Bool) (h : encodeGo data xs xe ys ye zs ze fuel = .ok [false, v]) :
    ∀ a b c, xs ≤ a → a < xe → ys ≤ b → b < ye → zs ≤ c → c < ze →
      getCell data a b c = v := by
  cases fuel with
  | zero => exact absurd h (by rw [encodeGo]; simp)
  | succ f =>
    rw [encodeGo] at h
    split at h
    · exact absurd h (by simp)
    · next hsz =>
      split at h
      · next hhom =>
        have h' := (Except.ok.injEq _ _).mp h
        have hv : getCell data xs ys zs = v :=
          (((List.cons.injEq _ _ _ _).mp h').2 |> (List.cons.injEq _ _ _ _).mp).1
        intro a b c h1 h2 h3 h4 h5 h6
        by_cases h2sz : 2 ≤ (xe - xs) * (ye - ys) * (ze - zs)
        · rw [hom_cells data xs xe ys ye zs ze hhom h2sz a b c h1 h2 h3 h4 h5
            h6, hv]
        · have h1' : (xe - xs) * (ye - ys) * (ze - zs) = 1 := by omega
          obtain ⟨hab, hC⟩ := mul_eq_one.mp h1'
          obtain ⟨hA, hB⟩ := mul_eq_one.mp hab
          have hax : a = xs := by omega
          have hby : b = ys := by omega
          have hcz : c = zs := by omega
          rw [hax, hby, hcz, hv]
      · obtain ⟨c0, h0, h⟩ := (exceptBind_eq_ok _ _ _).mp h
        obtain ⟨c1, h1, h⟩ := (exceptBind_eq_ok _ _ _).mp h
        obtain ⟨c2, h2, h⟩ := (exceptBind_eq_ok _ _ _).mp h
        obtain ⟨c3, h3, h⟩ := (exceptBind_eq_ok _ _ _).mp h
        obtain ⟨c4, h4, h⟩ := (exceptBind_eq_ok _ _ _).mp h
        obtain ⟨c5, h5, h⟩ := (exceptBind_eq_ok _ _ _).mp h
        obtain ⟨c6, h6, h⟩ := (exceptBind_eq_ok _ _ _).mp h
        obtain ⟨c7, h7, h⟩ := (exceptBind_eq_ok _ _ _).mp h
        have h' := (Except.ok.injEq _ _).mp h
        exact absurd ((List.cons.injEq _ _ _ _).mp h').1 (by simp)

/-- Inversion of a successful branch: the region is inhomogeneous, and the
tail is the concatenation of the 8 child encodings. -/
theorem encodeGo_branch_inv (data : Vol) (xs xe ys ye zs ze f : Nat)
    (t : List Bool)
    (h : encodeGo data xs xe ys ye zs ze (f + 1) = .ok (true :: t)) :
    is_subvolume_homogeneous data xs xe ys ye zs ze = false ∧
      ∃ c0 c1 c2 c3 c4 c5 c6 c7,
        t = c0 ++ (c1 ++ (c2 ++ (c3 ++ (c4 ++ (c5 ++ (c6 ++ c7)))))) ∧
        encodeGo data xs ((xe + xs) >>> 1) ys ((ye + ys) >>> 1) zs
          ((ze + zs) >>> 1) f = .ok c0 ∧
        encodeGo data xs ((xe + xs) >>> 1) ys ((ye + ys) >>> 1)
          ((ze + zs) >>> 1) ze f = .ok c1 ∧
        encodeGo data xs ((xe + xs) >>> 1) ((ye + ys) >>> 1) ye zs
          ((ze + zs) >>> 1) f = .ok c2 ∧
        encodeGo data xs ((xe + xs) >>> 1) ((ye + ys) >>> 1) ye
          ((ze + zs) >>> 1) ze f = .ok c3 ∧
        encodeGo data ((xe + xs) >>> 1) xe ys ((ye + ys) >>> 1) zs
          ((ze + zs) >>> 1) f = .ok c4 ∧
        encodeGo data ((xe + xs) >>> 1) xe ys ((ye + ys) >>> 1)
          ((ze + zs) >>> 1) ze f = .ok c5 ∧
        encodeGo data ((xe + xs) >>> 1) xe ((ye + ys) >>> 1) ye zs
          ((ze + zs) >>> 1) f = .ok c6 ∧
        encodeGo data ((xe + xs) >>> 1) xe ((ye + ys) >>> 1) ye
          ((ze + zs) >>> 1) ze f = .ok c7 := by
  rw [encodeGo] at h
  split at h
  · exact absurd h (by simp)
  · split at h
    · next hhom =>
      have h' := (Except.ok.injEq _ _).mp h
      exact absurd ((List.cons.injEq _ _ _ _).mp h').1 (by simp)
    · next hhom =>
      refine ⟨by rwa [Bool.not_eq_true] at hhom, ?_⟩
      obtain ⟨c0, h0, h⟩ := (exceptBind_eq_ok _ _ _).mp h
      obtain ⟨c1, h1, h⟩ := (exceptBind_eq_ok _ _ _).mp h
      obtain ⟨c2, h2, h⟩ := (exceptBind_eq_ok _ _ _).mp h
      obtain ⟨c3, h3, h⟩ := (exceptBind_eq_ok _ _ _).mp h
      obtain ⟨c4, h4, h⟩ := (exceptBind_eq_ok _ _ _).mp h
      obtain ⟨c5, h5, h⟩ := (exceptBind_eq_ok _ _ _).mp h
      obtain ⟨c6, h6, h⟩ := (exceptBind_eq_ok _ _ _).mp h
      obtain ⟨c7, h7, h⟩ := (exceptBind_eq_ok _ _ _).mp h
      have ht := (List.cons.injEq _ _ _ _).mp ((Except.ok.injEq _ _).mp h)
      refine ⟨c0, c1, c2, c3, c4, c5, c6, c7, ?_, h0, h1, h2, h3, h4, h5, h6,
        h7⟩
      rw [← ht.2]
      simp [List.append_assoc]

/-- Splitting a leaf chunk off the front of a concatenation of encodings. -/
theorem leaf_chunk (c0 R rest : List Bool) (v : Bool)
    (hsh : (∃ w, c0 = [false, w]) ∨ ∃ s, c0 = true :: s)
    (hcat : c0 ++ R = false :: v :: rest) : c0 = [false, v] ∧ R = rest := by
  rcases hsh with ⟨w, rfl⟩ | ⟨s, rfl⟩
  · simp only [List.cons_append, List.nil_append] at hcat
    have h1 := (List.cons.injEq _ _ _ _).mp hcat
    have h2 := (List.cons.injEq _ _ _ _).mp h1.2
    exact ⟨by rw [h2.1], h2.2⟩
  · simp only [List.cons_append] at hcat
    have h1 := (List.cons.injEq _ _ _ _).mp hcat
    exact absurd h1.1 (by simp)

/-- C10: every branch token the encoder emits (at any recursion level — each
bit-1 token in the stream is the head of some recursive call's output)
covers a subregion holding two cells with differing values, and consequently
the branch's tail is never eight identical same-value leaves: the encoding
is canonical (maximally merged). -/
theorem spec_C10_branch_canonical (data : Vol) (xs xe ys ye zs ze fuel : Nat)
    (t : List Bool)
    (henc : encodeGo data xs xe ys ye zs ze fuel = .ok (true :: t)) :
    ((xs < xe ∧ ys < ye ∧ zs < ze) ∧
      ∃ a b c, xs ≤ a ∧ a < xe ∧ ys ≤ b ∧ b < ye ∧ zs ≤ c ∧ c < ze ∧
        getCell data a b c ≠ getCell data xs ys zs) ∧
      ∀ v, t ≠ [false, v] ++ ([false, v] ++ ([false, v] ++ ([false, v] ++
        ([false, v] ++ ([false, v] ++ ([false, v] ++ [false, v])))))) := by
  cases fuel with
  | zero => exact absurd henc (by rw [encodeGo]; simp)
  | succ f =>
    obtain ⟨hhomF, c0, c1, c2, c3, c4, c5, c6, c7, hcat, h0, h1, h2, h3, h4,
      h5, h6, h7⟩ := encodeGo_branch_inv data xs xe ys ye zs ze f t henc
    obtain ⟨hsz2, a0, b0, cc, hb1, hb2, hb3, hb4, hb5, hb6, hne⟩ :=
      not_hom data xs xe ys ye zs ze hhomF
    have hxlt : xs < xe := by
      rcases Nat.lt_or_ge xs xe with hl | hl
      · exact hl
      · exfalso
        have he0 : xe - xs = 0 := by omega
        rw [he0] at hsz2
        simp at hsz2
    have hylt : ys < ye := by
      rcases Nat.lt_or_ge ys ye with hl | hl
      · exact hl
      · exfalso
        have he0 : ye - ys = 0 := by omega
        rw [he0] at hsz2
        simp at hsz2
    have hzlt : zs < ze := by
      rcases Nat.lt_or_ge zs ze with hl | hl
      · exact hl
      · exfalso
        have he0 : ze - zs = 0 := by omega
        rw [he0] at hsz2
        simp at hsz2
    refine ⟨⟨⟨hxlt, hylt, hzlt⟩,
      ⟨a0, b0, cc, hb1, hb2, hb3, hb4, hb5, hb6, hne⟩⟩, ?_⟩
    intro v hEq
    rw [hcat] at hEq
    simp only [List.cons_append, List.nil_append] at hEq
    obtain ⟨hc0, hEq⟩ := leaf_chunk c0 _ _ v
      (encodeGo_shape _ _ _ _ _ _ _ _ _ h0) hEq
    obtain ⟨hc1, hEq⟩ := leaf_chunk c1 _ _ v
      (encodeGo_shape _ _ _ _ _ _ _ _ _ h1) hEq
    obtain ⟨hc2, hEq⟩ := leaf_chunk c2 _ _ v
      (encodeGo_shape _ _ _ _ _ _ _ _ _ h2) hEq
    obtain ⟨hc3, hEq⟩ := leaf_chunk c3 _ _ v
      (encodeGo_shape _ _ _ _ _ _ _ _ _ h3) hEq
    obtain ⟨hc4, hEq⟩ := leaf_chunk c4 _ _ v
      (encodeGo_shape _ _ _ _ _ _ _ _ _ h4) hEq
    obtain ⟨hc5, hEq⟩ := leaf_chunk c5 _ _ v
      (encodeGo_shape _ _ _ _ _ _ _ _ _ h5) hEq
    obtain ⟨hc6, hc7⟩ := leaf_chunk c6 _ _ v
      (encodeGo_shape _ _ _ _ _ _ _ _ _ h6) hEq
    have k0 := encodeGo_leaf_cells data _ _ _ _ _ _ f v
      (by rw [← hc0]; exact h0)
    have k1 := encodeGo_leaf_cells data _ _ _ _ _ _ f v
      (by rw [← hc1]; exact h1)
    have k2 := encodeGo_leaf_cells data _ _ _ _ _ _ f v
      (by rw [← hc2]; exact h2)
    have k3 := encodeGo_leaf_cells data _ _ _ _ _ _ f v
      (by rw [← hc3]; exact h3)
    have k4 := encodeGo_leaf_cells data _ _ _ _ _ _ f v
      (by rw [← hc4]; exact h4)
    have k5 := encodeGo_leaf_cells data _ _ _ _ _ _ f v
      (by rw [← hc5]; exact h5)
    have k6 := encodeGo_leaf_cells data _ _ _ _ _ _ f v
      (by rw [← hc6]; exact h6)
    have k7 := encodeGo_leaf_cells data _ _ _ _ _ _ f v
      (by rw [← hc7]; exact h7)
    have hall : ∀ a b c, xs ≤ a → a < xe → ys ≤ b → b < ye → zs ≤ c →
        c < ze → getCell data a b c = v := by
      intro a b c ha1 ha2 hby1 hby2 hcz1 hcz2
      rcases Nat.lt_or_ge a ((xe + xs) >>> 1) with hax | hax <;>
        rcases Nat.lt_or_ge b ((ye + ys) >>> 1) with hby | hby <;>
          rcases Nat.lt_or_ge c ((ze + zs) >>> 1) with hcz | hcz
      · exact k0 a b c ha1 hax hby1 hby hcz1 hcz
      · exact k1 a b c ha1 hax hby1 hby hcz hcz2
      · exact k2 a b c ha1 hax hby hby2 hcz1 hcz
      · exact k3 a b c ha1 hax hby hby2 hcz hcz2
      · exact k4 a b c hax ha2 hby1 hby hcz1 hcz
      · exact k5 a b c hax ha2 hby1 hby hcz hcz2
      · exact k6 a b c hax ha2 hby hby2 hcz1 hcz
      · exact k7 a b c hax ha2 hby hby2 hcz hcz2
    have hT := hom_of_const data xs xe ys ye zs ze v hall
    rw [hhomF] at hT
    exact absurd hT (by simp)

theorem spec_C10_witness :
    encodeGo [[[true, false], [false, false]], [[false, false],
        [false, false]]] 0 2 0 2 0 2 21 =
      .ok (true :: ([false, true] ++ List.replicate 14 false)) ∧
      (((0 < 2 ∧ 0 < 2 ∧ 0 < 2) ∧
        ∃ a b c, 0 ≤ a ∧ a < 2 ∧ 0 ≤ b ∧ b < 2 ∧ 0 ≤ c ∧ c < 2 ∧
          getCell [[[true, false], [false, false]], [[false, false],
            [false, false]]] a b c ≠
            getCell [[[true, false], [false, false]], [[false, false],
              [false, false]]] 0 0 0) ∧
        ∀ v, ([false, true] ++ List.replicate 14 false : List Bool) ≠
          [false, v] ++ ([false, v] ++ ([false, v] ++ ([false, v] ++
            ([false, v] ++ ([false, v] ++ ([false, v] ++ [false, v]))))))) :=
  ⟨by decide,
    spec_C10_branch_canonical [[[true, false], [false, false]],
      [[false, false], [false, false]]] 0 2 0 2 0 2 21
      ([false, true] ++ List.replicate 14 false) (by decide)⟩

end Otbv
